import Mathlib

/-!
Shallow embedding of the workspace/dependency-graph core of the
`monorepo-utils` repository (packages/workspaces-util and the glob
resolver), together with proofs about the traversal, the graph builder,
the glob compiler and the wildcard pattern matcher.

Conventions of the embedding:
* JS strings are Lean `String`s; where index arithmetic matters (the
  pattern matcher, the glob parser) they are `List Char`.
* JS objects used as string-keyed maps are association lists,
  looked up with `List.lookup` (first binding wins).
* Functions that `throw` return `Except`.
* The two non-structural loops (the traversal recursion and the
  matcher's explicit stack loop) take a fuel argument; the fuel chosen
  by the wrappers is proven sufficient, so the wrappers compute exactly
  what the source loops compute.
-/

namespace WUtil

/-! ## Data model (types.ts) -/

abbrev DependencyMap := List (String × String)

structure PackageDeclaration where
  name : String
  version : String := ""
  workspaces : Option (List String) := none
  dependencies : Option DependencyMap := none
  devDependencies : Option DependencyMap := none
  peerDependencies : Option DependencyMap := none
  optionalDependencies : Option DependencyMap := none
  deriving Repr, DecidableEq

structure Module where
  baseDir : String := ""
  declaration : PackageDeclaration
  deriving Repr, DecidableEq

structure Workspace where
  root : Module
  modules : List Module
  deriving Repr, DecidableEq

/-! ## Dependency graph (dependencies.ts) -/

inductive DependencyMapKey where
  | dependencies
  | devDependencies
  | peerDependencies
  | optionalDependencies
  deriving Repr, DecidableEq

/-- `module.declaration[mapKeys[mapIndex]]` in the source. -/
def PackageDeclaration.mapOf (d : PackageDeclaration) : DependencyMapKey → Option DependencyMap
  | .dependencies => d.dependencies
  | .devDependencies => d.devDependencies
  | .peerDependencies => d.peerDependencies
  | .optionalDependencies => d.optionalDependencies

def DEFAULT_DEPENDENCY_MAPS : List DependencyMapKey :=
  [.dependencies, .devDependencies, .peerDependencies]

structure GraphOptions where
  workspace : Workspace
  dependencyMaps : Option (List DependencyMapKey) := none
  exclude : Option (List String) := none

structure TraversalOptions extends GraphOptions where
  moduleName : String
  includeSelf : Option Bool := none

/-- A graph node.  The source stores mutable arrays of node references;
since module names identify nodes (duplicate member names are undefined
behavior per the data model), edges are stored here as name lists. -/
structure GraphNode where
  module : Module
  dependencies : List String
  dependents : List String
  deriving Repr, DecidableEq

abbrev Graph := List (String × GraphNode)

/-- JS `String.prototype.startsWith(pre)`: a prefix test, written on the
underlying character lists so that it evaluates inside the kernel. -/
def stringStartsWith (s pre : String) : Bool :=
  pre.data.isPrefixOf s.data

/-- The edge test of the inner loop of `buildGraph`:
`dependencyMap[downstream.name]?.startsWith("workspace:") === true`
and the downstream module is not excluded. -/
def edgeTest (excluded : List String) (dm : DependencyMap) (v : Module) : Bool :=
  !(excluded.contains v.declaration.name) &&
    (match dm.lookup v.declaration.name with
     | some specifier => stringStartsWith specifier "workspace:"
     | none => false)

/-- The final contents of `upstream.dependencies` after the edge loops of
`buildGraph`: pushes are ordered by map key (outer), then by module index
(inner); an excluded upstream module is skipped by the outer `continue`. -/
def nodeDependencies (modules : List Module) (mapKeys : List DependencyMapKey)
    (excluded : List String) (u : Module) : List String :=
  if excluded.contains u.declaration.name then []
  else
    mapKeys.flatMap fun k =>
      match u.declaration.mapOf k with
      | none => []
      | some dm => modules.flatMap fun v =>
          if edgeTest excluded dm v then [v.declaration.name] else []

/-- The final contents of `downstream.dependents` after the edge loops of
`buildGraph`: pushes are ordered by upstream module index (outer), then
map key (inner). -/
def nodeDependents (modules : List Module) (mapKeys : List DependencyMapKey)
    (excluded : List String) (v : Module) : List String :=
  modules.flatMap fun u =>
    if excluded.contains u.declaration.name then []
    else
      mapKeys.flatMap fun k =>
        match u.declaration.mapOf k with
        | none => []
        | some dm => if edgeTest excluded dm v then [u.declaration.name] else []

/-- `buildGraph(workspace, options)`.  The imperative version first
creates one node per module (excluded names included) and then pushes
edges; here each node is created directly with the final contents of its
two edge lists. -/
def buildGraph (workspace : Workspace) (options : GraphOptions) : Graph :=
  let modules := workspace.modules
  let mapKeys := options.dependencyMaps.getD DEFAULT_DEPENDENCY_MAPS
  let excluded := options.exclude.getD []
  modules.map fun m =>
    (m.declaration.name,
      { module := m
        dependencies := nodeDependencies modules mapKeys excluded m
        dependents := nodeDependents modules mapKeys excluded m })

/-! ## Traversal (createTraversal) -/

inductive BranchKey where
  | dependencies
  | dependents
  deriving Repr, DecidableEq

inductive Direction where
  | push
  | unshift
  deriving Repr, DecidableEq

def GraphNode.branch (node : GraphNode) : BranchKey → List String
  | .dependencies => node.dependencies
  | .dependents => node.dependents

/-- The transient traversal state: the `visiting`/`visited` marks and the
`buildOrder` accumulator of `createTraversal`, all by module name. -/
structure TraversalState where
  visiting : List String
  visited : List String
  buildOrder : List String
  deriving Repr, DecidableEq

inductive VisitError where
  /-- a thrown `Error` -/
  | thrown (msg : String)
  /-- the `return false` unwinding of `visit`, with the outer mutable
  `cycleStart` and `cycleInfo` variables it updates -/
  | unwinding (cycleStart : String) (cycleInfo : String)
  deriving Repr, DecidableEq

/-- The `for` loop over `node[branchKey]` inside `visit`, including the
handling of a failed child visit (`cycleStart` comparison and
`cycleInfo` accumulation).  The child visitor is passed in as a function
so that the whole traversal is structurally recursive on its fuel. -/
def visitFold (visitChild : String → TraversalState → Except VisitError TraversalState)
    (n : String) : List String → TraversalState → Except VisitError TraversalState
  | [], s => .ok s
  | c :: cs, s =>
    match visitChild c s with
    | .ok s2 => visitFold visitChild n cs s2
    | .error (.unwinding cycleStart cycleInfo) =>
      if cycleStart = n then
        .error (.thrown ("Dependency cycle found: [-> " ++ cycleInfo ++ " ->]"))
      else
        .error (.unwinding cycleStart (cycleInfo ++ " -> " ++ n))
    | .error e => .error e

/-- The recursive `visit` closure of `createTraversal`.  Fuel bounds the
recursion depth; `graph.length + 1` is proven sufficient. -/
def visit (graph : Graph) (branchKey : BranchKey) (direction : Direction)
    (origin : String) (includeSelf : Option Bool) :
    Nat → String → TraversalState → Except VisitError TraversalState
  | 0, _, _ => .error (.thrown "fuel exhausted")
  | fuel + 1, n, s =>
    if s.visited.contains n then
      .ok s
    else if s.visiting.contains n then
      .error (.unwinding n n)
    else
      match graph.lookup n with
      | none => .error (.thrown "missing node")
      | some node =>
        match visitFold (visit graph branchKey direction origin includeSelf fuel) n
            (node.branch branchKey) { s with visiting := n :: s.visiting } with
        | .ok s2 =>
          .ok { visiting := s2.visiting.erase n
                visited := n :: s2.visited
                buildOrder :=
                  if n ≠ origin ∨ includeSelf ≠ some false then
                    match direction with
                    | .push => s2.buildOrder ++ [n]
                    | .unshift => n :: s2.buildOrder
                  else s2.buildOrder }
        | .error e => .error e

structure TraversalResult where
  buildOrder : List GraphNode
  root : GraphNode
  deriving Repr, DecidableEq

/-- Placeholder for a lookup that cannot fail (every name in `buildOrder`
is a key of the graph; proven below). -/
def dummyNode : GraphNode :=
  { module := { declaration := { name := "" } }, dependencies := [], dependents := [] }

/-- The post-traversal filtering of a node's relation lists down to the
nodes present in the result set. -/
def filterNode (affected : List String) (node : GraphNode) : GraphNode :=
  { node with
    dependencies := node.dependencies.filter fun m => affected.contains m
    dependents := node.dependents.filter fun m => affected.contains m }

/-- The body of the closure returned by `createTraversal`, applied to an
already-built graph. -/
def createTraversalOn (branchKey : BranchKey) (direction : Direction)
    (graph : Graph) (moduleName : String) (includeSelf : Option Bool) :
    Except VisitError TraversalResult :=
  match graph.lookup moduleName with
  | none => .error (.thrown ("No module \x27" ++ moduleName ++ "\x27 could be found in the workspace."))
  | some originNode =>
    match visit graph branchKey direction moduleName includeSelf
        (graph.length + 1) moduleName ⟨[], [], []⟩ with
    | .error e => .error e
    | .ok s =>
      let affected := s.buildOrder
      .ok { buildOrder := s.buildOrder.map fun m =>
              match graph.lookup m with
              | some node => filterNode affected node
              | none => dummyNode
            root := if affected.contains moduleName then filterNode affected originNode
                    else originNode }

def createTraversal (branchKey : BranchKey) (direction : Direction)
    (options : TraversalOptions) : Except VisitError TraversalResult :=
  createTraversalOn branchKey direction
    (buildGraph options.workspace options.toGraphOptions)
    options.moduleName options.includeSelf

/-- `getDependencies = createTraversal("dependencies", "push")`. -/
def getDependencies : TraversalOptions → Except VisitError TraversalResult :=
  createTraversal .dependencies .push

/-- `getDependents = createTraversal("dependents", "unshift")`. -/
def getDependents : TraversalOptions → Except VisitError TraversalResult :=
  createTraversal .dependents .unshift

/-! ## Module lookup (discovery.ts) -/

def getModuleOrNull (workspace : Workspace) (moduleName : String) : Option Module :=
  if workspace.root.declaration.name = moduleName then
    some workspace.root
  else
    workspace.modules.find? fun it => it.declaration.name = moduleName

def getModule (workspace : Workspace) (moduleName : String) : Except String Module :=
  match getModuleOrNull workspace moduleName with
  | some m => .ok m
  | none => .error ("No module \x27" ++ moduleName ++ "\x27 could be found in the workspace.")

/-! ## Workspace discovery (discoverWorkspace, ascent part) -/

/-- The upward loop of `discoverWorkspace`, over an abstract filesystem.
A directory is abstracted as its number of steps above the filesystem
root, so `join(cwd, "..")` is `cwd - 1` and the root `0` is its own
parent; `dirLoad` plays the role of the I/O function `discoverModule`.
`remaining` counts the loop iterations still allowed
(`maxDepth - depth + 1`). -/
def ascend (dirLoad : Nat → Option Module) : Nat → Nat → Option Module
  | 0, _ => none
  | remaining + 1, cwd =>
    match dirLoad cwd with
    | some m =>
      if (m.declaration.workspaces).isSome then some m
      else if cwd = 0 ∨ remaining = 0 then none
      else ascend dirLoad remaining (cwd - 1)
    | none =>
      if cwd = 0 ∨ remaining = 0 then none
      else ascend dirLoad remaining (cwd - 1)

/-- `discoverWorkspace`, up to the resolution of the member globs: the
walk that locates the workspace root module, or `null`.  The JS
truthiness test `root?.declaration.workspaces` is `isSome` here: a
present-but-empty `workspaces: []` array is truthy in JS. -/
def discoverWorkspaceRoot (dirLoad : Nat → Option Module) (cwd : Nat)
    (maxDepth : Option Nat) : Option Module :=
  ascend dirLoad (max 1 (maxDepth.getD 5)) cwd

/-! ## Pattern matcher (matchesPattern in the glob resolver) -/

/-- The `PatternMatch` objects of the matcher's explicit stack. -/
structure PatternMatch where
  index : Nat
  offset : Nat
  deriving Repr, DecidableEq

def WILD_SINGLE : List Char := ['?']

def WILD_MANY : List Char := ['*']

/-- The pruned candidate loop of the `WILD_MANY` branch: when the part
after the `*` is not itself a wildcard marker, a state at every
remaining offset where its first character occurs.  (For an empty next
part, JS reads `charCodeAt(0) = NaN`, which compares equal to nothing.) -/
def starPruned (input : List Char) (next offset : Nat) : List Char → List PatternMatch
  | [] => []
  | c :: cs =>
    if c :: cs ≠ WILD_SINGLE ∧ c :: cs ≠ WILD_MANY then
      ((List.range' offset (input.length - offset)).filter fun j =>
          input[j]? == some c).map fun j => ⟨next, j⟩
    else []

/-- The unconditional loop of the `WILD_MANY` branch: a state at every
remaining offset.  The source comment describes it as a fallback for a
`*` followed by another wildcard, but the loop is not guarded and always
runs. -/
def starFallback (input : List Char) (next offset : Nat) : List PatternMatch :=
  (List.range' offset (input.length - offset)).map fun j => ⟨next, j⟩

/-- All candidate states pushed by the `WILD_MANY` branch of
`matchesPattern` for a popped state at `offset`, when the part after the
`*` is `nextPart` at index `next`.  Each push loop runs in ascending
offset order and the pruned loop runs first, so with the head of a list
as the top of the stack the pushed block reads
`fallback.reverse ++ pruned.reverse`. -/
def starPushes (input : List Char) (nextPart : List Char) (next offset : Nat) :
    List PatternMatch :=
  (starFallback input next offset).reverse ++ (starPruned input next offset nextPart).reverse

/-- The string JS coerces `undefined` to inside
`input.startsWith(segment, offset)` when `segment = pattern[match.index]`
reads past the end of the part list. -/
def coercedUndefined : List Char := ['u', 'n', 'd', 'e', 'f', 'i', 'n', 'e', 'd']

/-- The `do ... while` loop of `matchesPattern` over the explicit state
stack (list head = top of stack).  Fuel bounds the iteration count; the
weight-based fuel chosen by `matchesPattern` is proven sufficient.  A
popped state whose `index` is out of range reads
`segment = pattern[match.index] = undefined` in the source and falls
into the literal branch, where `input.startsWith(undefined, offset)`
coerces the search string to `"undefined"`: when that text occurs at the
offset, the branch body then evaluates `segment.length` on `undefined`
and throws a `TypeError`; otherwise the state is dropped. -/
def matchesPatternLoop (pattern : List (List Char)) (input : List Char) :
    Nat → List PatternMatch → Except String Bool
  | _, [] => .ok false
  | 0, _ :: _ => .ok false
  | fuel + 1, m :: stack =>
    if m.index = pattern.length ∧ m.offset = input.length then .ok true
    else
      match pattern[m.index]? with
      | none =>
        if coercedUndefined.isPrefixOf (input.drop m.offset) then
          .error "TypeError: Cannot read properties of undefined (reading \x27length\x27)"
        else
          matchesPatternLoop pattern input fuel stack
      | some segment =>
        if segment = WILD_SINGLE then
          if m.offset < input.length then
            matchesPatternLoop pattern input fuel
              ({ index := m.index + 1, offset := m.offset + 1 } :: stack)
          else
            matchesPatternLoop pattern input fuel stack
        else if segment = WILD_MANY then
          if m.index + 1 = pattern.length then .ok true
          else
            matchesPatternLoop pattern input fuel
              (starPushes input (pattern[m.index + 1]?.getD []) (m.index + 1) m.offset ++ stack)
        else
          if segment.isPrefixOf (input.drop m.offset) then
            matchesPatternLoop pattern input fuel
              ({ index := m.index + 1, offset := m.offset + segment.length } :: stack)
          else
            matchesPatternLoop pattern input fuel stack

/-- Every state popped from the stack is replaced by states of strictly
larger `index`; this weight strictly decreases across one iteration and
therefore bounds the total number of iterations. -/
def stateWeight (patternLength inputLength : Nat) (m : PatternMatch) : Nat :=
  (2 * inputLength + 2) ^ (patternLength - m.index)

def stackWeight (patternLength inputLength : Nat) (stack : List PatternMatch) : Nat :=
  (stack.map (stateWeight patternLength inputLength)).sum

/-- `matchesPattern(pattern, input)`: the loop seeded with the single
state `(0, 0)` and enough fuel to run to completion.  The result is a
boolean unless the loop hits the `undefined`-coercion `TypeError`. -/
def matchesPattern (pattern : List (List Char)) (input : List Char) : Except String Bool :=
  matchesPatternLoop pattern input
    (stackWeight pattern.length input.length [⟨0, 0⟩] + 1) [⟨0, 0⟩]

/-- Declarative semantics of a wildcard part list: the input is fully
consumed by the parts in order; a literal part matches itself verbatim,
`?` matches exactly one character, `*` matches any possibly-empty block
of characters. -/
inductive PatternSem : List (List Char) → List Char → Prop where
  | nil : PatternSem [] []
  | lit {p : List Char} {ps : List (List Char)} {rest : List Char}
      (hq : p ≠ WILD_SINGLE) (hm : p ≠ WILD_MANY) (h : PatternSem ps rest) :
      PatternSem (p :: ps) (p ++ rest)
  | one {ps : List (List Char)} {rest : List Char} (c : Char) (h : PatternSem ps rest) :
      PatternSem (WILD_SINGLE :: ps) (c :: rest)
  | many {ps : List (List Char)} {rest : List Char} (pre : List Char) (h : PatternSem ps rest) :
      PatternSem (WILD_MANY :: ps) (pre ++ rest)

/-! ## Glob compiler (parseGlob) -/

inductive GlobSegment where
  | static (segment : List Char)
  | wildcard (pattern : List (List Char))
  deriving Repr, DecidableEq

def CC_SEP_POSIX : Char := '/'

def CC_SEP_WINDOWS : Char := '\\'

def CC_WILD_SINGLE : Char := '?'

def CC_WILD_MANY : Char := '*'

def CC_WILD_GROUP : Char := '['

/-- `pattern.slice(a, b)` on character lists. -/
def sliceChars (l : List Char) (a b : Nat) : List Char :=
  (l.drop a).take (b - a)

/-- The `endOfSegment` closure of `parseGlob`: flushes the pending
literal into `parts`, emits a Wildcard or Static segment, resets
`parts`, and computes the next `anchor` (preserving an initial
separator).  Returns the new `(glob, parts, anchor)`. -/
def endOfSegment (pattern : List Char) (index anchor : Nat) (hasWildcards : Bool)
    (parts : List (List Char)) (glob : List GlobSegment) :
    List GlobSegment × List (List Char) × Nat :=
  let parts1 := if anchor < index then parts ++ [sliceChars pattern anchor index] else parts
  let (glob1, parts2) :=
    if hasWildcards then (glob ++ [.wildcard parts1], ([] : List (List Char)))
    else if 0 < parts1.length then (glob ++ [.static (parts1.headD [])], [])
    else (glob, parts1)
  (glob1, parts2, if index = 0 then 0 else index + 1)

/-- The character scan of `parseGlob`.  `rest` is `pattern.drop index`;
the full pattern is kept for slicing and for the look-behind at
`index - 1` (which in JS reads `charCodeAt(-1) = NaN` at index 0, never
equal to `*`). -/
def parseGlobLoop (pattern : List Char) :
    List Char → Nat → Nat → Bool → List (List Char) → List GlobSegment →
    Except String (List GlobSegment)
  | [], index, anchor, hasWildcards, parts, glob =>
    .ok (endOfSegment pattern index anchor hasWildcards parts glob).1
  | cc :: rest, index, anchor, hasWildcards, parts, glob =>
    if cc = CC_SEP_POSIX ∨ cc = CC_SEP_WINDOWS then
      match endOfSegment pattern index anchor hasWildcards parts glob with
      | (glob1, parts1, anchor1) =>
        parseGlobLoop pattern rest (index + 1) anchor1 false parts1 glob1
    else if cc = CC_WILD_MANY ∧ 0 < index ∧ pattern[index - 1]? = some CC_WILD_MANY then
      .error "Recursive wildcard (**) is not supported."
    else if cc = CC_WILD_MANY ∨ cc = CC_WILD_SINGLE then
      let parts1 :=
        (if anchor < index then parts ++ [sliceChars pattern anchor index] else parts) ++ [[cc]]
      parseGlobLoop pattern rest (index + 1) (index + 1) true parts1 glob
    else if cc = CC_WILD_GROUP then
      .error "Group wildcards (e.g. [abc]) are not supported."
    else
      parseGlobLoop pattern rest (index + 1) anchor hasWildcards parts glob

/-- `parseGlob(pattern)`. -/
def parseGlob (pattern : List Char) : Except String (List GlobSegment) :=
  parseGlobLoop pattern pattern 0 0 false [] []

/-! ## Pattern matcher: correctness of the backtracking loop -/

/-- A stack state accepts when the remaining parts match the remaining
input exactly. -/
def matchAccept (pattern : List (List Char)) (input : List Char) (m : PatternMatch) : Prop :=
  PatternSem (pattern.drop m.index) (input.drop m.offset)

/-- Every stack state stays inside the pattern and the input. -/
def stackInv (pattern : List (List Char)) (input : List Char) (stack : List PatternMatch) : Prop :=
  ∀ m ∈ stack, m.index ≤ pattern.length ∧ m.offset ≤ input.length

/-- No two adjacent `*` parts (Boolean scan).  `parseGlob` throws on
`**`, so part lists produced by the compiler always satisfy this. -/
def noAdjacentStarsB : List (List Char) → Bool
  | a :: b :: rest => !(a == WILD_MANY && b == WILD_MANY) && noAdjacentStarsB (b :: rest)
  | _ => true

def noAdjacentStars (pattern : List (List Char)) : Prop :=
  noAdjacentStarsB pattern = true

instance : DecidablePred noAdjacentStars := fun _ =>
  inferInstanceAs (Decidable (_ = true))

lemma noAdjacentStars_tail {a : List Char} {rest : List (List Char)}
    (h : noAdjacentStars (a :: rest)) : noAdjacentStars rest := by
  cases rest with
  | nil => rfl
  | cons b rest' =>
    unfold noAdjacentStars noAdjacentStarsB at h
    show noAdjacentStarsB (b :: rest') = true
    exact ((Bool.and_eq_true _ _).mp h).2

lemma noAdjacentStars_get :
    ∀ {pattern : List (List Char)} {i : Nat} {q : List Char},
      noAdjacentStars pattern → pattern[i]? = some WILD_MANY →
      pattern[i + 1]? = some q → q ≠ WILD_MANY := by
  intro pattern
  induction pattern with
  | nil =>
    intro i q _ h1 _
    simp at h1
  | cons a rest ih =>
    intro i q h h1 h2
    cases i with
    | zero =>
      have ha : a = WILD_MANY := by simpa using h1
      cases rest with
      | nil => simp at h2
      | cons b rest' =>
        have hb : b = q := by simpa using h2
        subst hb
        subst ha
        intro hq
        subst hq
        unfold noAdjacentStars noAdjacentStarsB at h
        simp at h
    | succ i =>
      have h1' : rest[i]? = some WILD_MANY := by simpa using h1
      have h2' : rest[i + 1]? = some q := by simpa using h2
      exact ih (noAdjacentStars_tail h) h1' h2'

lemma patternSem_nil (xs : List Char) : PatternSem [] xs ↔ xs = [] := by
  constructor
  · intro h
    cases h
    rfl
  · rintro rfl
    exact .nil

lemma patternSem_cons {q : List Char} {ps : List (List Char)} {xs : List Char}
    (h : PatternSem (q :: ps) xs) :
    (q ≠ WILD_SINGLE ∧ q ≠ WILD_MANY ∧ ∃ rest, xs = q ++ rest ∧ PatternSem ps rest) ∨
    (q = WILD_SINGLE ∧ ∃ c rest, xs = c :: rest ∧ PatternSem ps rest) ∨
    (q = WILD_MANY ∧ ∃ pre rest, xs = pre ++ rest ∧ PatternSem ps rest) := by
  cases h with
  | lit hq hm h => exact .inl ⟨hq, hm, _, rfl, h⟩
  | one c h => exact .inr (.inl ⟨rfl, c, _, rfl, h⟩)
  | many pre h => exact .inr (.inr ⟨rfl, pre, _, rfl, h⟩)

lemma patternSem_lit_iff {q : List Char} {ps : List (List Char)} {xs : List Char}
    (hq : q ≠ WILD_SINGLE) (hm : q ≠ WILD_MANY) :
    PatternSem (q :: ps) xs ↔ ∃ rest, xs = q ++ rest ∧ PatternSem ps rest := by
  constructor
  · intro h
    rcases patternSem_cons h with ⟨_, _, rest, rfl, hsem⟩ | ⟨h1, _⟩ | ⟨h1, _⟩
    · exact ⟨rest, rfl, hsem⟩
    · exact absurd h1 hq
    · exact absurd h1 hm
  · rintro ⟨rest, rfl, h⟩
    exact .lit hq hm h

lemma patternSem_one_iff {ps : List (List Char)} {xs : List Char} :
    PatternSem (WILD_SINGLE :: ps) xs ↔ ∃ c rest, xs = c :: rest ∧ PatternSem ps rest := by
  constructor
  · intro h
    rcases patternSem_cons h with ⟨hq, _⟩ | ⟨_, c, rest, rfl, hsem⟩ | ⟨h1, _⟩
    · exact absurd rfl hq
    · exact ⟨c, rest, rfl, hsem⟩
    · exact absurd h1 (by decide)
  · rintro ⟨c, rest, rfl, h⟩
    exact .one c h

lemma patternSem_many_iff {ps : List (List Char)} {xs : List Char} :
    PatternSem (WILD_MANY :: ps) xs ↔ ∃ pre rest, xs = pre ++ rest ∧ PatternSem ps rest := by
  constructor
  · intro h
    rcases patternSem_cons h with ⟨_, hm, _⟩ | ⟨h1, _⟩ | ⟨_, pre, rest, rfl, hsem⟩
    · exact absurd rfl hm
    · exact absurd h1 (by decide)
    · exact ⟨pre, rest, rfl, hsem⟩
  · rintro ⟨pre, rest, rfl, h⟩
    exact .many pre h

/-- A part list whose head is a nonempty non-`*` part cannot match the
empty input. -/
lemma patternSem_cons_nil {q : List Char} {ps : List (List Char)}
    (hm : q ≠ WILD_MANY) (h0 : q ≠ []) : ¬ PatternSem (q :: ps) [] := by
  intro h
  rcases patternSem_cons h with ⟨_, _, rest, he, _⟩ | ⟨_, c, rest, he, _⟩ | ⟨h1, _⟩
  · exact h0 (List.append_eq_nil.mp he.symm).1
  · exact List.noConfusion he
  · exact hm h1

lemma mem_starFallback {input : List Char} {next offset : Nat} {m : PatternMatch} :
    m ∈ starFallback input next offset ↔
      ∃ j, offset ≤ j ∧ j < input.length ∧ m = ⟨next, j⟩ := by
  simp only [starFallback, List.mem_map, List.mem_range'_1]
  constructor
  · rintro ⟨j, hj, rfl⟩
    exact ⟨j, hj.1, by omega, rfl⟩
  · rintro ⟨j, h1, h2, rfl⟩
    exact ⟨j, ⟨h1, by omega⟩, rfl⟩

lemma mem_starPruned {input nextPart : List Char} {next offset : Nat} {m : PatternMatch}
    (h : m ∈ starPruned input next offset nextPart) :
    ∃ j, offset ≤ j ∧ j < input.length ∧ m = ⟨next, j⟩ := by
  match nextPart with
  | [] => exact absurd h (by simp [starPruned])
  | c :: cs =>
    rw [starPruned] at h
    split at h
    · rcases List.mem_map.mp h with ⟨j, hj, rfl⟩
      have := List.mem_range'_1.mp (List.mem_filter.mp hj).1
      exact ⟨j, this.1, by omega, rfl⟩
    · exact absurd h (List.not_mem_nil m)

lemma mem_starPushes {input nextPart : List Char} {next offset : Nat} {m : PatternMatch} :
    m ∈ starPushes input nextPart next offset ↔
      ∃ j, offset ≤ j ∧ j < input.length ∧ m = ⟨next, j⟩ := by
  constructor
  · intro h
    rcases List.mem_append.mp h with h | h
    · exact mem_starFallback.mp (List.mem_reverse.mp h)
    · exact mem_starPruned (List.mem_reverse.mp h)
  · intro h
    exact List.mem_append.mpr (.inl (List.mem_reverse.mpr (mem_starFallback.mpr h)))

/-! Weight bookkeeping for the matcher loop. -/

lemma sum_map_const {α : Type} (l : List α) (w : Nat) :
    (l.map fun _ => w).sum = l.length * w := by
  induction l with
  | nil => simp
  | cons a l ih => simp [ih, Nat.succ_mul, Nat.add_comm]

lemma stateWeight_pos (P L : Nat) (m : PatternMatch) : 0 < stateWeight P L m := by
  unfold stateWeight
  positivity

lemma stackWeight_cons (P L : Nat) (m : PatternMatch) (s : List PatternMatch) :
    stackWeight P L (m :: s) = stateWeight P L m + stackWeight P L s := by
  simp [stackWeight]

lemma stackWeight_append (P L : Nat) (s t : List PatternMatch) :
    stackWeight P L (s ++ t) = stackWeight P L s + stackWeight P L t := by
  simp [stackWeight]

lemma stackWeight_reverse (P L : Nat) (s : List PatternMatch) :
    stackWeight P L s.reverse = stackWeight P L s := by
  simp [stackWeight, List.map_reverse, List.sum_reverse]

lemma stackWeight_map_offsets (P L next : Nat) (l : List Nat) :
    stackWeight P L (l.map fun j => ⟨next, j⟩) = l.length * (2 * L + 2) ^ (P - next) := by
  unfold stackWeight
  rw [List.map_map]
  rw [show (stateWeight P L ∘ fun j => (⟨next, j⟩ : PatternMatch)) =
      fun _ => (2 * L + 2) ^ (P - next) from rfl]
  rw [sum_map_const]

lemma stateWeight_succ_lt (P L i : Nat) (h : i < P) (m m2 : PatternMatch)
    (hm : m.index = i) (hm2 : m2.index = i + 1) :
    stateWeight P L m2 < stateWeight P L m := by
  unfold stateWeight
  rw [hm, hm2]
  exact Nat.pow_lt_pow_right (by omega) (by omega)

lemma stackWeight_starPushes_lt (P L : Nat) (input : List Char) (hL : input.length = L)
    (nextPart : List Char) (i offset : Nat) (h : i < P) :
    stackWeight P L (starPushes input nextPart (i + 1) offset) <
      stateWeight P L ⟨i, offset⟩ := by
  have hw : (0 : Nat) < (2 * L + 2) ^ (P - (i + 1)) := by positivity
  have hfall : stackWeight P L (starFallback input (i + 1) offset) =
      (L - offset) * (2 * L + 2) ^ (P - (i + 1)) := by
    unfold starFallback
    rw [stackWeight_map_offsets, List.length_range', hL]
  have hpr : stackWeight P L (starPruned input (i + 1) offset nextPart) ≤
      (L - offset) * (2 * L + 2) ^ (P - (i + 1)) := by
    match nextPart with
    | [] => simp [starPruned, stackWeight]
    | c :: cs =>
      rw [starPruned]
      split
      · rw [stackWeight_map_offsets]
        apply Nat.mul_le_mul_right
        calc (List.filter _ (List.range' offset (input.length - offset))).length
            ≤ (List.range' offset (input.length - offset)).length :=
              List.length_filter_le _ _
          _ = L - offset := by rw [List.length_range', hL]
      · simp [stackWeight]
  have hsum : stackWeight P L (starPushes input nextPart (i + 1) offset) ≤
      (L - offset) * (2 * L + 2) ^ (P - (i + 1)) +
        (L - offset) * (2 * L + 2) ^ (P - (i + 1)) := by
    unfold starPushes
    rw [stackWeight_append, stackWeight_reverse, stackWeight_reverse]
    omega
  have h1 : (L - offset) * (2 * L + 2) ^ (P - (i + 1)) ≤
      L * (2 * L + 2) ^ (P - (i + 1)) := Nat.mul_le_mul_right _ (by omega)
  have h2 : L * (2 * L + 2) ^ (P - (i + 1)) + L * (2 * L + 2) ^ (P - (i + 1)) +
      2 * (2 * L + 2) ^ (P - (i + 1)) = (2 * L + 2) * (2 * L + 2) ^ (P - (i + 1)) := by
    ring
  have hpow : stateWeight P L (⟨i, offset⟩ : PatternMatch) =
      (2 * L + 2) * (2 * L + 2) ^ (P - (i + 1)) := by
    unfold stateWeight
    rw [show P - i = (P - (i + 1)) + 1 by omega, pow_succ]
    ring
  omega

/-! One-step acceptance lemmas for each branch of the loop. -/

lemma matchAccept_success {pattern : List (List Char)} {input : List Char} {m : PatternMatch}
    (h1 : m.index = pattern.length) (h2 : m.offset = input.length) :
    matchAccept pattern input m := by
  unfold matchAccept
  rw [h1, h2, List.drop_length, List.drop_length]
  exact .nil

lemma not_matchAccept_out {pattern : List (List Char)} {input : List Char} {m : PatternMatch}
    (h1 : m.index = pattern.length) (h2 : m.offset < input.length) :
    ¬ matchAccept pattern input m := by
  unfold matchAccept
  rw [h1, List.drop_length, patternSem_nil, List.drop_eq_nil_iff]
  omega

lemma matchAccept_one_iff {pattern : List (List Char)} {input : List Char} {m : PatternMatch}
    (hm : pattern[m.index]? = some WILD_SINGLE) (hoff : m.offset < input.length) :
    matchAccept pattern input m ↔
      matchAccept pattern input ⟨m.index + 1, m.offset + 1⟩ := by
  have hi : m.index < pattern.length := (List.getElem?_eq_some.mp hm).1
  unfold matchAccept
  rw [List.drop_eq_getElem_cons hi, List.drop_eq_getElem_cons hoff]
  rw [show pattern[m.index] = WILD_SINGLE from by
    have := List.getElem?_eq_some.mp hm; exact this.2]
  rw [patternSem_one_iff]
  constructor
  · rintro ⟨c, rest, he, h⟩
    cases he
    exact h
  · intro h
    exact ⟨_, _, rfl, h⟩

lemma not_matchAccept_one_end {pattern : List (List Char)} {input : List Char}
    {m : PatternMatch} (hm : pattern[m.index]? = some WILD_SINGLE)
    (hoff : input.length ≤ m.offset) : ¬ matchAccept pattern input m := by
  have hi : m.index < pattern.length := (List.getElem?_eq_some.mp hm).1
  unfold matchAccept
  rw [List.drop_eq_getElem_cons hi]
  rw [show pattern[m.index] = WILD_SINGLE from (List.getElem?_eq_some.mp hm).2]
  rw [patternSem_one_iff]
  rintro ⟨c, rest, he, -⟩
  have : input.drop m.offset = [] := List.drop_eq_nil_iff.mpr hoff
  rw [this] at he
  exact List.noConfusion he

lemma matchAccept_lit_iff {pattern : List (List Char)} {input : List Char} {m : PatternMatch}
    {seg : List Char} (hm : pattern[m.index]? = some seg)
    (hq : seg ≠ WILD_SINGLE) (hs : seg ≠ WILD_MANY)
    (hpre : seg.isPrefixOf (input.drop m.offset) = true) :
    matchAccept pattern input m ↔
      matchAccept pattern input ⟨m.index + 1, m.offset + seg.length⟩ := by
  have hi : m.index < pattern.length := (List.getElem?_eq_some.mp hm).1
  have hdrop : input.drop m.offset = seg ++ input.drop (m.offset + seg.length) := by
    have := List.prefix_iff_eq_append.mp (List.isPrefixOf_iff_prefix.mp hpre)
    rw [List.drop_drop] at this
    exact this.symm
  unfold matchAccept
  rw [List.drop_eq_getElem_cons hi]
  rw [show pattern[m.index] = seg from (List.getElem?_eq_some.mp hm).2]
  rw [patternSem_lit_iff hq hs, hdrop]
  constructor
  · rintro ⟨rest, he, h⟩
    rw [List.append_cancel_left he]
    exact h
  · intro h
    exact ⟨_, rfl, h⟩

lemma not_matchAccept_lit {pattern : List (List Char)} {input : List Char} {m : PatternMatch}
    {seg : List Char} (hm : pattern[m.index]? = some seg)
    (hq : seg ≠ WILD_SINGLE) (hs : seg ≠ WILD_MANY)
    (hpre : seg.isPrefixOf (input.drop m.offset) = false) :
    ¬ matchAccept pattern input m := by
  have hi : m.index < pattern.length := (List.getElem?_eq_some.mp hm).1
  unfold matchAccept
  rw [List.drop_eq_getElem_cons hi]
  rw [show pattern[m.index] = seg from (List.getElem?_eq_some.mp hm).2]
  rw [patternSem_lit_iff hq hs]
  rintro ⟨rest, he, -⟩
  have : seg.isPrefixOf (input.drop m.offset) = true :=
    List.isPrefixOf_iff_prefix.mpr ⟨rest, he.symm⟩
  rw [this] at hpre
  exact Bool.noConfusion hpre

lemma matchAccept_star_final {pattern : List (List Char)} {input : List Char}
    {m : PatternMatch} (hm : pattern[m.index]? = some WILD_MANY)
    (hfin : m.index + 1 = pattern.length) : matchAccept pattern input m := by
  have hi : m.index < pattern.length := (List.getElem?_eq_some.mp hm).1
  unfold matchAccept
  rw [List.drop_eq_getElem_cons hi]
  rw [show pattern[m.index] = WILD_MANY from (List.getElem?_eq_some.mp hm).2]
  rw [hfin, List.drop_length]
  have : input.drop m.offset = input.drop m.offset ++ [] := by simp
  rw [this]
  exact .many _ .nil

lemma matchAccept_star_iff {pattern : List (List Char)} {input : List Char}
    (hne : [] ∉ pattern) (hstars : noAdjacentStars pattern) {m : PatternMatch}
    (hm : pattern[m.index]? = some WILD_MANY) (hnext : m.index + 1 < pattern.length)
    (hoff : m.offset ≤ input.length) :
    matchAccept pattern input m ↔
      ∃ j, m.offset ≤ j ∧ j < input.length ∧
        matchAccept pattern input ⟨m.index + 1, j⟩ := by
  have hi : m.index < pattern.length := (List.getElem?_eq_some.mp hm).1
  have hqmem : pattern[m.index + 1] ∈ pattern := List.getElem_mem _
  have hq0 : pattern[m.index + 1] ≠ [] := fun h => hne (h ▸ hqmem)
  have hqstar : pattern[m.index + 1] ≠ WILD_MANY :=
    noAdjacentStars_get hstars hm (List.getElem?_eq_getElem hnext)
  unfold matchAccept
  rw [List.drop_eq_getElem_cons hi]
  rw [show pattern[m.index] = WILD_MANY from (List.getElem?_eq_some.mp hm).2]
  rw [patternSem_many_iff]
  constructor
  · rintro ⟨pre, rest, he, h⟩
    have hrest : rest = input.drop (m.offset + pre.length) := by
      have : (input.drop m.offset).drop pre.length = rest := by
        rw [he, List.drop_left]
      rw [List.drop_drop] at this
      exact this.symm
    have hlen : m.offset + pre.length ≤ input.length := by
      have h1 : (input.drop m.offset).length = input.length - m.offset :=
        List.length_drop _ _
      have h2 : pre.length + rest.length = (input.drop m.offset).length := by
        rw [he, List.length_append]
      omega
    rcases Nat.lt_or_ge (m.offset + pre.length) input.length with hlt | hge
    · refine ⟨m.offset + pre.length, by omega, hlt, ?_⟩
      rw [← hrest]
      exact h
    · exfalso
      have hLeq : m.offset + pre.length = input.length := by omega
      rw [hrest, hLeq, List.drop_length] at h
      have hcons : pattern.drop (m.index + 1) =
          pattern[m.index + 1] :: pattern.drop (m.index + 2) :=
        List.drop_eq_getElem_cons hnext
      rw [hcons] at h
      exact patternSem_cons_nil hqstar hq0 h
  · rintro ⟨j, hj1, hj2, h⟩
    refine ⟨(input.drop m.offset).take (j - m.offset), input.drop j, ?_, h⟩
    rw [show input.drop j = (input.drop m.offset).drop (j - m.offset) by
      rw [List.drop_drop]; congr 1; omega]
    rw [List.take_append_drop]

/-! Helpers for shifting the existential over the stack. -/

lemma exists_cons_of_not {α : Type} {P : α → Prop} {a : α} {l : List α} (h : ¬ P a) :
    (∃ x ∈ a :: l, P x) ↔ ∃ x ∈ l, P x := by
  constructor
  · rintro ⟨x, hx, hP⟩
    rcases List.mem_cons.mp hx with rfl | hx
    · exact absurd hP h
    · exact ⟨x, hx, hP⟩
  · rintro ⟨x, hx, hP⟩
    exact ⟨x, List.mem_cons_of_mem _ hx, hP⟩

lemma exists_cons_congr {α : Type} {P : α → Prop} {a b : α} {l : List α} (h : P a ↔ P b) :
    (∃ x ∈ a :: l, P x) ↔ ∃ x ∈ b :: l, P x := by
  constructor
  · rintro ⟨x, hx, hP⟩
    rcases List.mem_cons.mp hx with rfl | hx
    · exact ⟨b, List.mem_cons_self _ _, h.mp hP⟩
    · exact ⟨x, List.mem_cons_of_mem _ hx, hP⟩
  · rintro ⟨x, hx, hP⟩
    rcases List.mem_cons.mp hx with rfl | hx
    · exact ⟨a, List.mem_cons_self _ _, h.mpr hP⟩
    · exact ⟨x, List.mem_cons_of_mem _ hx, hP⟩

lemma exists_append_iff {α : Type} {P : α → Prop} {l1 l2 : List α} :
    (∃ x ∈ l1 ++ l2, P x) ↔ (∃ x ∈ l1, P x) ∨ ∃ x ∈ l2, P x := by
  constructor
  · rintro ⟨x, hx, hP⟩
    rcases List.mem_append.mp hx with hx | hx
    · exact .inl ⟨x, hx, hP⟩
    · exact .inr ⟨x, hx, hP⟩
  · rintro (⟨x, hx, hP⟩ | ⟨x, hx, hP⟩)
    · exact ⟨x, List.mem_append.mpr (.inl hx), hP⟩
    · exact ⟨x, List.mem_append.mpr (.inr hx), hP⟩

/-- Main loop invariant: with enough fuel, whenever the loop returns a
boolean at all, that boolean is `true` exactly when some state on the
stack accepts.  (A pop with an out-of-range part index where the coerced
text `"undefined"` occurs at the offset makes the loop throw instead of
returning.) -/
theorem matchesPatternLoop_ok_iff (pattern : List (List Char)) (input : List Char)
    (hne : [] ∉ pattern) (hstars : noAdjacentStars pattern) :
    ∀ fuel stack, stackInv pattern input stack →
      stackWeight pattern.length input.length stack < fuel →
      ∀ b, matchesPatternLoop pattern input fuel stack = .ok b →
      (b = true ↔ ∃ m ∈ stack, matchAccept pattern input m) := by
  intro fuel
  induction fuel with
  | zero =>
    intro stack _ hw
    exact absurd hw (Nat.not_lt_zero _)
  | succ fuel ih =>
    intro stack hinv hw
    match stack with
    | [] =>
      intro b hb
      simp only [matchesPatternLoop] at hb
      injection hb with hb
      subst hb
      simp
    | m :: stack =>
      intro b hb
      have hm := hinv m (List.mem_cons_self _ _)
      have htail : stackInv pattern input stack := fun x hx =>
        hinv x (List.mem_cons_of_mem _ hx)
      rw [stackWeight_cons] at hw
      have hwpos := stateWeight_pos pattern.length input.length m
      simp only [matchesPatternLoop] at hb
      by_cases hacc : m.index = pattern.length ∧ m.offset = input.length
      · rw [if_pos hacc] at hb
        injection hb with hb
        subst hb
        exact iff_of_true rfl
          ⟨m, List.mem_cons_self _ _, matchAccept_success hacc.1 hacc.2⟩
      · rw [if_neg hacc] at hb
        cases hseg : pattern[m.index]? with
        | none =>
          rw [hseg] at hb
          dsimp only at hb
          have hidx : pattern.length ≤ m.index := by
            have := List.getElem?_eq_none_iff.mp hseg
            exact this
          have heq : m.index = pattern.length := le_antisymm hm.1 hidx
          have hoff : m.offset < input.length := by
            rcases Nat.lt_or_ge m.offset input.length with h | h
            · exact h
            · exact absurd ⟨heq, le_antisymm hm.2 h⟩ hacc
          by_cases hcu : coercedUndefined.isPrefixOf (input.drop m.offset) = true
          · rw [if_pos hcu] at hb
            exact absurd hb (by simp)
          · rw [if_neg hcu] at hb
            rw [ih stack htail (by omega) b hb]
            exact (exists_cons_of_not (not_matchAccept_out heq hoff)).symm
        | some seg =>
          rw [hseg] at hb
          dsimp only at hb
          have hi : m.index < pattern.length := (List.getElem?_eq_some.mp hseg).1
          by_cases hq : seg = WILD_SINGLE
          · subst hq
            rw [if_pos rfl] at hb
            by_cases hoff : m.offset < input.length
            · rw [if_pos hoff] at hb
              have hnew : stackInv pattern input
                  (⟨m.index + 1, m.offset + 1⟩ :: stack) := by
                intro x hx
                rcases List.mem_cons.mp hx with rfl | hx
                · exact ⟨by show m.index + 1 ≤ pattern.length; omega,
                    by show m.offset + 1 ≤ input.length; omega⟩
                · exact htail x hx
              have hwlt := stateWeight_succ_lt pattern.length input.length m.index hi
                m ⟨m.index + 1, m.offset + 1⟩ rfl rfl
              rw [ih _ hnew (by rw [stackWeight_cons]; omega) b hb]
              exact (exists_cons_congr (matchAccept_one_iff hseg hoff)).symm
            · rw [if_neg hoff] at hb
              rw [ih stack htail (by omega) b hb]
              exact (exists_cons_of_not
                (not_matchAccept_one_end hseg (by omega))).symm
          · rw [if_neg hq] at hb
            by_cases hs : seg = WILD_MANY
            · subst hs
              rw [if_pos rfl] at hb
              by_cases hfin : m.index + 1 = pattern.length
              · rw [if_pos hfin] at hb
                injection hb with hb
                subst hb
                exact iff_of_true rfl
                  ⟨m, List.mem_cons_self _ _, matchAccept_star_final hseg hfin⟩
              · rw [if_neg hfin] at hb
                have hnext : m.index + 1 < pattern.length := by omega
                have hgetq : pattern[m.index + 1]? = some pattern[m.index + 1] :=
                  List.getElem?_eq_getElem hnext
                rw [hgetq] at hb
                have hnew : stackInv pattern input
                    (starPushes input ((some pattern[m.index + 1]).getD [])
                      (m.index + 1) m.offset ++ stack) := by
                  intro x hx
                  rcases List.mem_append.mp hx with hx | hx
                  · rcases mem_starPushes.mp hx with ⟨j, _, hj2, rfl⟩
                    exact ⟨by show m.index + 1 ≤ pattern.length; omega,
                      by show j ≤ input.length; omega⟩
                  · exact htail x hx
                have hwlt := stackWeight_starPushes_lt pattern.length input.length
                  input rfl ((some pattern[m.index + 1]).getD []) m.index m.offset hi
                have hwm : stateWeight pattern.length input.length
                    (⟨m.index, m.offset⟩ : PatternMatch) =
                    stateWeight pattern.length input.length m := rfl
                rw [ih _ hnew (by rw [stackWeight_append]; omega) b hb]
                rw [exists_append_iff]
                constructor
                · rintro (⟨x, hx, hP⟩ | h)
                  · rcases mem_starPushes.mp hx with ⟨j, hj1, hj2, rfl⟩
                    exact ⟨m, List.mem_cons_self _ _,
                      (matchAccept_star_iff hne hstars hseg hnext hm.2).mpr
                        ⟨j, hj1, hj2, hP⟩⟩
                  · rcases h with ⟨x, hx, hP⟩
                    exact ⟨x, List.mem_cons_of_mem _ hx, hP⟩
                · rintro ⟨x, hx, hP⟩
                  rcases List.mem_cons.mp hx with rfl | hx
                  · rcases (matchAccept_star_iff hne hstars hseg hnext
                        hm.2).mp hP with ⟨j, hj1, hj2, hPj⟩
                    exact .inl ⟨⟨x.index + 1, j⟩,
                      mem_starPushes.mpr ⟨j, hj1, hj2, rfl⟩, hPj⟩
                  · exact .inr ⟨x, hx, hP⟩
            · rw [if_neg hs] at hb
              by_cases hpre : seg.isPrefixOf (input.drop m.offset) = true
              · rw [if_pos hpre] at hb
                have hlen : m.offset + seg.length ≤ input.length := by
                  have h1 := List.IsPrefix.length_le (List.isPrefixOf_iff_prefix.mp hpre)
                  have h2 : (input.drop m.offset).length = input.length - m.offset :=
                    List.length_drop _ _
                  omega
                have hnew : stackInv pattern input
                    (⟨m.index + 1, m.offset + seg.length⟩ :: stack) := by
                  intro x hx
                  rcases List.mem_cons.mp hx with rfl | hx
                  · exact ⟨by show m.index + 1 ≤ pattern.length; omega, hlen⟩
                  · exact htail x hx
                have hwlt := stateWeight_succ_lt pattern.length input.length m.index hi
                  m ⟨m.index + 1, m.offset + seg.length⟩ rfl rfl
                rw [ih _ hnew (by rw [stackWeight_cons]; omega) b hb]
                exact (exists_cons_congr (matchAccept_lit_iff hseg hq hs hpre)).symm
              · rw [if_neg hpre] at hb
                rw [ih stack htail (by omega) b hb]
                have hpre2 : seg.isPrefixOf (input.drop m.offset) = false :=
                  Bool.eq_false_iff.mpr hpre
                exact (exists_cons_of_not (not_matchAccept_lit hseg hq hs hpre2)).symm

/-! ## Glob compiler lemmas -/

/-- A character that is neither a separator nor a wildcard marker. -/
def plainChar (c : Char) : Prop :=
  c ≠ CC_SEP_POSIX ∧ c ≠ CC_SEP_WINDOWS ∧ c ≠ CC_WILD_SINGLE ∧
    c ≠ CC_WILD_MANY ∧ c ≠ CC_WILD_GROUP

instance : DecidablePred plainChar := fun _ =>
  inferInstanceAs (Decidable (_ ∧ _))

lemma parseGlobLoop_plain (pattern : List Char)
    (hplain : ∀ c ∈ pattern, plainChar c) :
    ∀ rest index, rest = pattern.drop index → index ≤ pattern.length →
      parseGlobLoop pattern rest index 0 false [] [] =
        .ok (endOfSegment pattern pattern.length 0 false [] []).1 := by
  intro rest
  induction rest with
  | nil =>
    intro index hdrop hle
    have hge : pattern.length ≤ index := List.drop_eq_nil_iff.mp hdrop.symm
    have : index = pattern.length := le_antisymm hle hge
    subst this
    rfl
  | cons c rest ih =>
    intro index hdrop hle
    have hcons : pattern.drop index = c :: rest := hdrop.symm
    have hidx : index < pattern.length := by
      by_contra hcon
      rw [List.drop_eq_nil_iff.mpr (by omega)] at hcons
      exact List.noConfusion hcons
    have hc : c ∈ pattern := by
      have : c ∈ pattern.drop index := by
        rw [hcons]
        exact List.mem_cons_self _ _
      exact List.mem_of_mem_drop this
    obtain ⟨h1, h2, h3, h4, h5⟩ := hplain c hc
    have hrest : rest = pattern.drop (index + 1) := by
      have h := List.drop_drop 1 index pattern
      rw [hcons] at h
      exact h
    simp only [parseGlobLoop]
    rw [if_neg (by simp [h1, h2]), if_neg (by simp [h4]), if_neg (by simp [h3, h4]),
      if_neg h5]
    exact ih (index + 1) hrest (by omega)

/-- Amended C8 property: a nonempty pattern containing no wildcard
markers and no separator characters compiles to exactly one Static
segment carrying the original pattern. -/
lemma parseGlob_plain (pattern : List Char) (hne : pattern ≠ [])
    (hplain : ∀ c ∈ pattern, plainChar c) :
    parseGlob pattern = .ok [.static pattern] := by
  unfold parseGlob
  rw [parseGlobLoop_plain pattern hplain pattern 0 (by simp) (Nat.zero_le _)]
  unfold endOfSegment sliceChars
  have hpos : 0 < pattern.length := List.length_pos.mpr hne
  rw [if_pos hpos]
  simp

/-! ## Discovery: the upward walk characterized -/

/-- The ascent returns `some m` exactly when `m` is the module loaded at
the first examined level that declares a `workspaces` field (present,
possibly empty), where at most `rem` levels are examined and the walk
never climbs above the root. -/
lemma ascend_some_iff (dirLoad : Nat → Option Module) :
    ∀ rem cwd m, ascend dirLoad rem cwd = some m ↔
      ∃ i, i < rem ∧ i ≤ cwd ∧ dirLoad (cwd - i) = some m ∧
        m.declaration.workspaces.isSome = true ∧
        ∀ j, j < i → ∀ m', dirLoad (cwd - j) = some m' →
          m'.declaration.workspaces = none := by
  intro rem
  induction rem with
  | zero =>
    intro cwd m
    simp only [ascend]
    constructor
    · intro h
      exact absurd h (by simp)
    · rintro ⟨i, hi, -⟩
      exact absurd hi (Nat.not_lt_zero _)
  | succ rem ih =>
    intro cwd m
    simp only [ascend]
    cases hload : dirLoad cwd with
    | some m0 =>
      dsimp only
      by_cases hws : m0.declaration.workspaces.isSome = true
      · rw [if_pos hws]
        constructor
        · intro h
          cases h
          exact ⟨0, Nat.succ_pos _, Nat.zero_le _, by simpa using hload, hws,
            fun j hj => absurd hj (Nat.not_lt_zero _)⟩
        · rintro ⟨i, hi1, hi2, hi3, hi4, hi5⟩
          rcases Nat.eq_zero_or_pos i with rfl | hipos
          · simp only [Nat.sub_zero] at hi3
            rw [hload] at hi3
            exact hi3
          · have := hi5 0 hipos m0 (by simpa using hload)
            rw [this] at hws
            exact absurd hws (by simp)
      · rw [if_neg hws]
        have hw0 : m0.declaration.workspaces = none := by
          cases hw : m0.declaration.workspaces with
          | none => rfl
          | some l => rw [hw] at hws; exact absurd rfl hws
        by_cases hstop : cwd = 0 ∨ rem = 0
        · rw [if_pos hstop]
          constructor
          · intro h
            exact absurd h (by simp)
          · rintro ⟨i, hi1, hi2, hi3, hi4, hi5⟩
            rcases Nat.eq_zero_or_pos i with rfl | hipos
            · simp only [Nat.sub_zero] at hi3
              rw [hload] at hi3
              cases hi3
              rw [hw0] at hi4
              exact absurd hi4 (by simp)
            · rcases hstop with h0 | h0 <;> omega
        · rw [if_neg hstop]
          rw [ih (cwd - 1) m]
          push_neg at hstop
          constructor
          · rintro ⟨i, hi1, hi2, hi3, hi4, hi5⟩
            refine ⟨i + 1, by omega, by omega, ?_, hi4, ?_⟩
            · rw [show cwd - (i + 1) = cwd - 1 - i by omega]
              exact hi3
            · intro j hj m' hm'
              rcases Nat.eq_zero_or_pos j with rfl | hjpos
              · simp only [Nat.sub_zero] at hm'
                rw [hload] at hm'
                cases hm'
                exact hw0
              · have := hi5 (j - 1) (by omega) m'
                rw [show cwd - 1 - (j - 1) = cwd - j by omega] at this
                exact this hm'
          · rintro ⟨i, hi1, hi2, hi3, hi4, hi5⟩
            have hipos : 0 < i := by
              rcases Nat.eq_zero_or_pos i with rfl | h
              · simp only [Nat.sub_zero] at hi3
                rw [hload] at hi3
                cases hi3
                rw [hw0] at hi4
                exact absurd hi4 (by simp)
              · exact h
            refine ⟨i - 1, by omega, by omega, ?_, hi4, ?_⟩
            · rw [show cwd - 1 - (i - 1) = cwd - i by omega]
              exact hi3
            · intro j hj m' hm'
              have := hi5 (j + 1) (by omega) m'
              rw [show cwd - (j + 1) = cwd - 1 - j by omega] at this
              exact this hm'
    | none =>
      dsimp only
      by_cases hstop : cwd = 0 ∨ rem = 0
      · rw [if_pos hstop]
        constructor
        · intro h
          exact absurd h (by simp)
        · rintro ⟨i, hi1, hi2, hi3, hi4, hi5⟩
          rcases Nat.eq_zero_or_pos i with rfl | hipos
          · simp only [Nat.sub_zero] at hi3
            rw [hload] at hi3
            exact Option.noConfusion hi3
          · rcases hstop with h0 | h0 <;> omega
      · rw [if_neg hstop]
        rw [ih (cwd - 1) m]
        push_neg at hstop
        constructor
        · rintro ⟨i, hi1, hi2, hi3, hi4, hi5⟩
          refine ⟨i + 1, by omega, by omega, ?_, hi4, ?_⟩
          · rw [show cwd - (i + 1) = cwd - 1 - i by omega]
            exact hi3
          · intro j hj m' hm'
            rcases Nat.eq_zero_or_pos j with rfl | hjpos
            · simp only [Nat.sub_zero] at hm'
              rw [hload] at hm'
              exact Option.noConfusion hm'
            · have := hi5 (j - 1) (by omega) m'
              rw [show cwd - 1 - (j - 1) = cwd - j by omega] at this
              exact this hm'
        · rintro ⟨i, hi1, hi2, hi3, hi4, hi5⟩
          have hipos : 0 < i := by
            rcases Nat.eq_zero_or_pos i with rfl | h
            · simp only [Nat.sub_zero] at hi3
              rw [hload] at hi3
              exact Option.noConfusion hi3
            · exact h
          refine ⟨i - 1, by omega, by omega, ?_, hi4, ?_⟩
          · rw [show cwd - 1 - (i - 1) = cwd - i by omega]
            exact hi3
          · intro j hj m' hm'
            have := hi5 (j + 1) (by omega) m'
            rw [show cwd - (j + 1) = cwd - 1 - j by omega] at this
            exact this hm'

/-- Whenever `matchesPattern` returns a boolean at all, that boolean
decides the declarative semantics, for part lists of the shape the glob
compiler produces (no empty literal, no `**`). -/
theorem matchesPattern_iff_patternSem (pattern : List (List Char)) (input : List Char)
    (hne : [] ∉ pattern) (hstars : noAdjacentStars pattern) (b : Bool)
    (h : matchesPattern pattern input = .ok b) :
    b = true ↔ PatternSem pattern input := by
  unfold matchesPattern at h
  rw [matchesPatternLoop_ok_iff pattern input hne hstars _ _
    (fun m hm => by
      rcases List.mem_cons.mp hm with rfl | hm
      · exact ⟨Nat.zero_le _, Nat.zero_le _⟩
      · exact absurd hm (List.not_mem_nil m))
    (Nat.lt_succ_self _) b h]
  constructor
  · rintro ⟨m, hm, hP⟩
    rcases List.mem_cons.mp hm with rfl | hm
    · simpa [matchAccept] using hP
    · exact absurd hm (List.not_mem_nil m)
  · intro h2
    exact ⟨⟨0, 0⟩, List.mem_cons_self _ _, by simpa [matchAccept] using h2⟩

/-! ## Traversal: graph relation and assoc-list basics -/

/-- The successor names of `n` along the chosen branch. -/
def succName (graph : Graph) (bk : BranchKey) (n : String) : List String :=
  match graph.lookup n with
  | some node => node.branch bk
  | none => []

/-- One edge of the traversal relation. -/
def GraphEdge (graph : Graph) (bk : BranchKey) (n m : String) : Prop :=
  m ∈ succName graph bk n

instance (graph : Graph) (bk : BranchKey) (n m : String) : Decidable (GraphEdge graph bk n m) :=
  inferInstanceAs (Decidable (m ∈ succName graph bk n))

/-- No node reaches itself through a nonempty edge chain. -/
def Acyclic (graph : Graph) (bk : BranchKey) : Prop :=
  ∀ n, ¬ Relation.TransGen (GraphEdge graph bk) n n

/-- Every edge of the graph ends in a key of the graph. -/
def EdgesClosed (graph : Graph) : Prop :=
  ∀ bk n m, GraphEdge graph bk n m → ((graph.lookup m).isSome : Prop)

/-- Every binding of the graph maps a name to a node wrapping a module
of that name. -/
def KeyNamed (graph : Graph) : Prop :=
  ∀ p ∈ graph, p.2.module.declaration.name = p.1

lemma lookup_isSome_iff {β : Type} (l : List (String × β)) (a : String) :
    ((l.lookup a).isSome : Prop) ↔ a ∈ l.map Prod.fst := by
  induction l with
  | nil => simp [List.lookup]
  | cons p l ih =>
    obtain ⟨k, v⟩ := p
    rw [List.lookup_cons]
    by_cases h : a = k
    · subst h
      simp
    · have hbeq : (a == k) = false := by
        simp [h]
      rw [hbeq]
      simp only [List.map_cons, List.mem_cons]
      rw [ih]
      constructor
      · exact fun hm => .inr hm
      · rintro (hm | hm)
        · exact absurd hm h
        · exact hm

lemma lookup_mem {β : Type} {l : List (String × β)} {a : String} {b : β}
    (h : l.lookup a = some b) : (a, b) ∈ l := by
  induction l with
  | nil => exact absurd h (by simp [List.lookup])
  | cons p l ih =>
    obtain ⟨k, v⟩ := p
    rw [List.lookup_cons] at h
    by_cases he : a = k
    · subst he
      simp only [beq_self_eq_true] at h
      cases h
      exact List.mem_cons_self _ _
    · have hbeq : (a == k) = false := by
        simp [he]
      rw [hbeq] at h
      exact List.mem_cons_of_mem _ (ih h)

lemma lookup_eq_none_iff {β : Type} (l : List (String × β)) (a : String) :
    l.lookup a = none ↔ a ∉ l.map Prod.fst := by
  rw [← lookup_isSome_iff]
  cases h : l.lookup a <;> simp [h]

/-! Facts about the graphs `buildGraph` produces. -/

lemma buildGraph_keys (ws : Workspace) (opts : GraphOptions) :
    (buildGraph ws opts).map Prod.fst = ws.modules.map fun m => m.declaration.name := by
  simp [buildGraph, List.map_map, Function.comp]

lemma mem_buildGraph {ws : Workspace} {opts : GraphOptions} {p : String × GraphNode}
    (h : p ∈ buildGraph ws opts) :
    ∃ m ∈ ws.modules, p = (m.declaration.name,
      { module := m
        dependencies := nodeDependencies ws.modules (opts.dependencyMaps.getD DEFAULT_DEPENDENCY_MAPS)
            (opts.exclude.getD []) m
        dependents := nodeDependents ws.modules (opts.dependencyMaps.getD DEFAULT_DEPENDENCY_MAPS)
            (opts.exclude.getD []) m }) := by
  simp only [buildGraph, List.mem_map] at h
  obtain ⟨m, hm, hp⟩ := h
  exact ⟨m, hm, hp.symm⟩

lemma buildGraph_keyNamed (ws : Workspace) (opts : GraphOptions) :
    KeyNamed (buildGraph ws opts) := by
  intro p hp
  obtain ⟨m, _, rfl⟩ := mem_buildGraph hp
  rfl

lemma mem_nodeDependencies_name {modules : List Module} {mapKeys : List DependencyMapKey}
    {excluded : List String} {u : Module} {x : String}
    (h : x ∈ nodeDependencies modules mapKeys excluded u) :
    ∃ v ∈ modules, x = v.declaration.name ∧ excluded.contains v.declaration.name = false := by
  unfold nodeDependencies at h
  split at h
  · exact absurd h (List.not_mem_nil x)
  · rcases List.mem_flatMap.mp h with ⟨k, -, hk⟩
    rcases hmap : u.declaration.mapOf k with - | dm
    · rw [hmap] at hk
      exact absurd hk (List.not_mem_nil x)
    · rw [hmap] at hk
      rcases List.mem_flatMap.mp hk with ⟨v, hv, hx⟩
      rcases ht : edgeTest excluded dm v with - | -
      · rw [ht] at hx
        exact absurd hx (List.not_mem_nil x)
      · rw [ht] at hx
        have hxe : x = v.declaration.name := by
          rcases List.mem_singleton.mp hx with rfl
          rfl
        have hnotex : excluded.contains v.declaration.name = false := by
          have := ht
          unfold edgeTest at this
          rcases hc : excluded.contains v.declaration.name with - | -
          · rfl
          · rw [hc] at this
            simp at this
        exact ⟨v, hv, hxe, hnotex⟩

lemma mem_nodeDependents_name {modules : List Module} {mapKeys : List DependencyMapKey}
    {excluded : List String} {v : Module} {x : String}
    (h : x ∈ nodeDependents modules mapKeys excluded v) :
    ∃ u ∈ modules, x = u.declaration.name ∧ excluded.contains u.declaration.name = false := by
  unfold nodeDependents at h
  rcases List.mem_flatMap.mp h with ⟨u, hu, hk⟩
  rcases hex : excluded.contains u.declaration.name with - | -
  · rw [hex] at hk
    rw [if_neg Bool.false_ne_true] at hk
    rcases List.mem_flatMap.mp hk with ⟨k, -, hkk⟩
    rcases hmap : u.declaration.mapOf k with - | dm
    · rw [hmap] at hkk
      exact absurd hkk (List.not_mem_nil x)
    · rw [hmap] at hkk
      dsimp only at hkk
      rcases ht : edgeTest excluded dm v with - | -
      · rw [ht] at hkk
        exact absurd hkk (List.not_mem_nil x)
      · rw [ht] at hkk
        rcases List.mem_singleton.mp hkk with rfl
        exact ⟨u, hu, rfl, hex⟩
  · rw [hex] at hk
    rw [if_pos rfl] at hk
    exact absurd hk (List.not_mem_nil x)

lemma buildGraph_edgesClosed (ws : Workspace) (opts : GraphOptions) :
    EdgesClosed (buildGraph ws opts) := by
  intro bk n m hedge
  unfold GraphEdge succName at hedge
  rcases hl : (buildGraph ws opts).lookup n with - | node
  · rw [hl] at hedge
    exact absurd hedge (List.not_mem_nil m)
  · rw [hl] at hedge
    obtain ⟨mo, hmo, hpe⟩ := mem_buildGraph (lookup_mem hl)
    have hname : m ∈ ws.modules.map fun mm => mm.declaration.name := by
      have hpe2 := congrArg Prod.snd hpe
      simp only at hpe2
      rw [hpe2] at hedge
      cases bk with
      | dependencies =>
        obtain ⟨v, hv, rfl, -⟩ := mem_nodeDependencies_name hedge
        exact List.mem_map.mpr ⟨v, hv, rfl⟩
      | dependents =>
        obtain ⟨u, hu, rfl, -⟩ := mem_nodeDependents_name hedge
        exact List.mem_map.mpr ⟨u, hu, rfl⟩
    rw [lookup_isSome_iff, buildGraph_keys]
    exact hname

/-! ## Traversal: the visitation invariant -/

/-- `node !== origin || options.includeSelf !== false`: the condition
under which a finished node is appended to `buildOrder`. -/
def emits (origin : String) (inc : Option Bool) (n : String) : Prop :=
  n ≠ origin ∨ inc ≠ some false

instance (origin : String) (inc : Option Bool) : DecidablePred (emits origin inc) :=
  fun _ => inferInstanceAs (Decidable (_ ∨ _))

/-- State invariant maintained by every successful (sub)visit, for the
`push` direction. -/
structure VisitInv (graph : Graph) (bk : BranchKey) (origin : String) (inc : Option Bool)
    (s : TraversalState) : Prop where
  nodupV : s.visited.Nodup
  nodupB : s.buildOrder.Nodup
  buildVisited : ∀ x ∈ s.buildOrder, x ∈ s.visited
  visitedBuild : ∀ x ∈ s.visited, emits origin inc x → x ∈ s.buildOrder
  visitedKeys : ∀ x ∈ s.visited, ((graph.lookup x).isSome : Prop)
  closed : ∀ x ∈ s.visited, ∀ m ∈ succName graph bk x, m ∈ s.visited
  order : ∀ x ∈ s.buildOrder, ∀ m ∈ succName graph bk x, m ∈ s.buildOrder →
    s.buildOrder.indexOf m < s.buildOrder.indexOf x

/-- Everything a successful `visit n` guarantees. -/
structure VisitPost (graph : Graph) (bk : BranchKey) (origin : String) (inc : Option Bool)
    (n : String) (s s' : TraversalState) : Prop where
  inv : VisitInv graph bk origin inc s'
  visiting_eq : s'.visiting = s.visiting
  memv : n ∈ s'.visited
  mono : ∃ new, s'.visited = new ++ s.visited ∧
    ∀ x ∈ new, Relation.ReflTransGen (GraphEdge graph bk) n x ∧ x ∉ s.visiting
  buildMono : ∃ newB, s'.buildOrder = s.buildOrder ++ newB ∧ ∀ x ∈ newB, x ∉ s.visited

/-- Everything a successful children loop guarantees. -/
structure FoldPost (graph : Graph) (bk : BranchKey) (origin : String) (inc : Option Bool)
    (children : List String) (s s' : TraversalState) : Prop where
  inv : VisitInv graph bk origin inc s'
  visiting_eq : s'.visiting = s.visiting
  memAll : ∀ c ∈ children, c ∈ s'.visited
  mono : ∃ new, s'.visited = new ++ s.visited ∧
    ∀ x ∈ new, (∃ c ∈ children, Relation.ReflTransGen (GraphEdge graph bk) c x) ∧
      x ∉ s.visiting
  buildMono : ∃ newB, s'.buildOrder = s.buildOrder ++ newB ∧ ∀ x ∈ newB, x ∉ s.visited

lemma visitInv_visiting {graph : Graph} {bk : BranchKey} {origin : String}
    {inc : Option Bool} {s : TraversalState} (h : VisitInv graph bk origin inc s)
    (v : List String) : VisitInv graph bk origin inc { s with visiting := v } :=
  ⟨h.nodupV, h.nodupB, h.buildVisited, h.visitedBuild, h.visitedKeys, h.closed, h.order⟩

lemma indexOf_append_fresh {l : List String} {n : String} (h : n ∉ l) :
    (l ++ [n]).indexOf n = l.length := by
  induction l with
  | nil => simp
  | cons a l ih =>
    have hne : a ≠ n := fun he => h (he ▸ List.mem_cons_self a l)
    simp only [List.cons_append, List.length_cons]
    rw [List.indexOf_cons_ne _ hne, ih fun hm => h (List.mem_cons_of_mem _ hm)]

/-- Main soundness induction: whenever `visit` (push direction)
succeeds from an invariant state, the full postcondition holds. -/
theorem visit_ok_spec (graph : Graph) (bk : BranchKey) (origin : String) (inc : Option Bool) :
    ∀ fuel n s s', VisitInv graph bk origin inc s →
      visit graph bk .push origin inc fuel n s = .ok s' →
      VisitPost graph bk origin inc n s s' := by
  intro fuel
  induction fuel with
  | zero =>
    intro n s s' _ h
    exact absurd h (by simp [visit])
  | succ fuel ih =>
    have foldSpec : ∀ (children : List String) (n1 : String) (s s' : TraversalState),
        VisitInv graph bk origin inc s →
        visitFold (visit graph bk .push origin inc fuel) n1 children s = .ok s' →
        FoldPost graph bk origin inc children s s' := by
      intro children
      induction children with
      | nil =>
        intro n1 s s' hinv h
        simp only [visitFold] at h
        cases h
        exact ⟨hinv, rfl, by simp, ⟨[], rfl, by simp⟩, ⟨[], by simp, by simp⟩⟩
      | cons c cs ihc =>
        intro n1 s s' hinv h
        simp only [visitFold] at h
        cases hv : visit graph bk .push origin inc fuel c s with
        | ok s2 =>
          rw [hv] at h
          dsimp only at h
          have hpost := ih c s s2 hinv hv
          have hrest := ihc n1 s2 s' hpost.inv h
          refine ⟨hrest.inv, ?_, ?_, ?_, ?_⟩
          · rw [hrest.visiting_eq, hpost.visiting_eq]
          · intro x hx
            rcases List.mem_cons.mp hx with rfl | hx
            · obtain ⟨new2, he2, -⟩ := hrest.mono
              rw [he2]
              exact List.mem_append.mpr (.inr hpost.memv)
            · exact hrest.memAll x hx
          · obtain ⟨new1, he1, hr1⟩ := hpost.mono
            obtain ⟨new2, he2, hr2⟩ := hrest.mono
            refine ⟨new2 ++ new1, by rw [he2, he1, List.append_assoc], ?_⟩
            intro x hx
            rcases List.mem_append.mp hx with hx | hx
            · obtain ⟨⟨c', hc', hrr⟩, hnv⟩ := hr2 x hx
              rw [hpost.visiting_eq] at hnv
              exact ⟨⟨c', List.mem_cons_of_mem _ hc', hrr⟩, hnv⟩
            · obtain ⟨hrr, hnv⟩ := hr1 x hx
              exact ⟨⟨c, List.mem_cons_self _ _, hrr⟩, hnv⟩
          · obtain ⟨nb1, hb1, hf1⟩ := hpost.buildMono
            obtain ⟨nb2, hb2, hf2⟩ := hrest.buildMono
            refine ⟨nb1 ++ nb2, by rw [hb2, hb1, List.append_assoc], ?_⟩
            intro x hx
            rcases List.mem_append.mp hx with hx | hx
            · exact hf1 x hx
            · intro hxv
              apply hf2 x hx
              obtain ⟨new1, he1, -⟩ := hpost.mono
              rw [he1]
              exact List.mem_append.mpr (.inr hxv)
        | error e =>
          rw [hv] at h
          exfalso
          cases e with
          | thrown msg => simp at h
          | unwinding cst cinfo =>
            dsimp only at h
            by_cases hc : cst = n1
            · rw [if_pos hc] at h
              simp at h
            · rw [if_neg hc] at h
              simp at h
    intro n s s' hinv h
    simp only [visit] at h
    by_cases hvd : s.visited.contains n = true
    · rw [if_pos hvd] at h
      cases h
      have hnv : n ∈ s.visited := by simpa using hvd
      exact ⟨hinv, rfl, hnv, ⟨[], rfl, by simp⟩, ⟨[], by simp, by simp⟩⟩
    · rw [if_neg hvd] at h
      have hnmem : n ∉ s.visited := by simpa using hvd
      by_cases hvg : s.visiting.contains n = true
      · rw [if_pos hvg] at h
        exact absurd h (by simp)
      · rw [if_neg hvg] at h
        have hnvis : n ∉ s.visiting := by simpa using hvg
        cases hlook : graph.lookup n with
        | none =>
          rw [hlook] at h
          exact absurd h (by simp)
        | some node =>
          rw [hlook] at h
          dsimp only at h
          cases hfold : visitFold (visit graph bk .push origin inc fuel) n
              (node.branch bk) { s with visiting := n :: s.visiting } with
          | error e =>
            rw [hfold] at h
            exact absurd h (by simp)
          | ok s2 =>
            rw [hfold] at h
            dsimp only at h
            have hf := foldSpec (node.branch bk) n _ s2 (visitInv_visiting hinv _) hfold
            have hInv2 := hf.inv
            have hsucc : succName graph bk n = node.branch bk := by
              unfold succName
              rw [hlook]
            obtain ⟨newC, heC, hrC⟩ := hf.mono
            obtain ⟨newBC, hbC, hfC⟩ := hf.buildMono
            have hvis2 : s2.visiting = n :: s.visiting := hf.visiting_eq
            have hn2 : n ∉ s2.visited := by
              rw [heC]
              intro hmem
              rcases List.mem_append.mp hmem with hmem | hmem
              · exact (hrC n hmem).2 (List.mem_cons_self _ _)
              · exact hnmem hmem
            have hnB2 : n ∉ s2.buildOrder := fun hb => hn2 (hInv2.buildVisited n hb)
            cases h
            by_cases hemit : n ≠ origin ∨ inc ≠ some false
            · rw [if_pos hemit]
              have hidxold : ∀ y ∈ s2.buildOrder,
                  (s2.buildOrder ++ [n]).indexOf y = s2.buildOrder.indexOf y :=
                fun y hy => List.indexOf_append_of_mem hy
              refine ⟨⟨?_, ?_, ?_, ?_, ?_, ?_, ?_⟩, ?_, ?_, ?_, ?_⟩
              · exact List.nodup_cons.mpr ⟨hn2, hInv2.nodupV⟩
              · rw [List.nodup_append]
                exact ⟨hInv2.nodupB, by simp, by
                  intro a ha hb
                  rcases List.mem_singleton.mp hb with rfl
                  exact hnB2 ha⟩
              · intro x hx
                rcases List.mem_append.mp hx with hx | hx
                · exact List.mem_cons_of_mem _ (hInv2.buildVisited x hx)
                · rcases List.mem_singleton.mp hx with rfl
                  exact List.mem_cons_self _ _
              · intro x hx hex
                rcases List.mem_cons.mp hx with rfl | hx
                · exact List.mem_append.mpr (.inr (List.mem_singleton.mpr rfl))
                · exact List.mem_append.mpr (.inl (hInv2.visitedBuild x hx hex))
              · intro x hx
                rcases List.mem_cons.mp hx with rfl | hx
                · rw [hlook]
                  rfl
                · exact hInv2.visitedKeys x hx
              · intro x hx m hm
                rcases List.mem_cons.mp hx with rfl | hx
                · rw [hsucc] at hm
                  exact List.mem_cons_of_mem _ (hf.memAll m hm)
                · exact List.mem_cons_of_mem _ (hInv2.closed x hx m hm)
              · intro x hx m hm hmB
                rcases List.mem_append.mp hx with hx | hx
                · have hmv : m ∈ s2.visited :=
                    hInv2.closed x (hInv2.buildVisited x hx) m hm
                  have hmne : m ≠ n := fun he => hn2 (he ▸ hmv)
                  have hmB2 : m ∈ s2.buildOrder := by
                    rcases List.mem_append.mp hmB with hmB | hmB
                    · exact hmB
                    · exact absurd (List.mem_singleton.mp hmB) hmne
                  rw [hidxold m hmB2, hidxold x hx]
                  exact hInv2.order x hx m hm hmB2
                · rcases List.mem_singleton.mp hx with rfl
                  rw [hsucc] at hm
                  have hmv : m ∈ s2.visited := hf.memAll m hm
                  have hmne : m ≠ x := fun he => hn2 (he ▸ hmv)
                  have hmB2 : m ∈ s2.buildOrder := by
                    rcases List.mem_append.mp hmB with hmB | hmB
                    · exact hmB
                    · exact absurd (List.mem_singleton.mp hmB) hmne
                  rw [hidxold m hmB2, indexOf_append_fresh hnB2]
                  exact lt_of_lt_of_le (List.indexOf_lt_length.mpr hmB2) (le_refl _)
              · show s2.visiting.erase n = s.visiting
                rw [hvis2, List.erase_cons_head]
              · exact List.mem_cons_self _ _
              · refine ⟨n :: newC, by rw [List.cons_append, heC], ?_⟩
                intro x hx
                rcases List.mem_cons.mp hx with rfl | hx
                · exact ⟨Relation.ReflTransGen.refl, hnvis⟩
                · obtain ⟨⟨c, hc, hrr⟩, hnv⟩ := hrC x hx
                  refine ⟨Relation.ReflTransGen.head ?_ hrr, ?_⟩
                  · unfold GraphEdge
                    rw [hsucc]
                    exact hc
                  · intro hcon
                    exact hnv (List.mem_cons_of_mem _ hcon)
              · refine ⟨newBC ++ [n], by rw [hbC, List.append_assoc], ?_⟩
                intro x hx
                rcases List.mem_append.mp hx with hx | hx
                · exact hfC x hx
                · rcases List.mem_singleton.mp hx with rfl
                  exact hnmem
            · rw [if_neg hemit]
              refine ⟨⟨?_, hInv2.nodupB, ?_, ?_, ?_, ?_, ?_⟩, ?_, ?_, ?_, ?_⟩
              · exact List.nodup_cons.mpr ⟨hn2, hInv2.nodupV⟩
              · exact fun x hx => List.mem_cons_of_mem _ (hInv2.buildVisited x hx)
              · intro x hx hex
                rcases List.mem_cons.mp hx with rfl | hx
                · exact absurd hex hemit
                · exact hInv2.visitedBuild x hx hex
              · intro x hx
                rcases List.mem_cons.mp hx with rfl | hx
                · rw [hlook]
                  rfl
                · exact hInv2.visitedKeys x hx
              · intro x hx m hm
                rcases List.mem_cons.mp hx with rfl | hx
                · rw [hsucc] at hm
                  exact List.mem_cons_of_mem _ (hf.memAll m hm)
                · exact List.mem_cons_of_mem _ (hInv2.closed x hx m hm)
              · exact hInv2.order
              · show s2.visiting.erase n = s.visiting
                rw [hvis2, List.erase_cons_head]
              · exact List.mem_cons_self _ _
              · refine ⟨n :: newC, by rw [List.cons_append, heC], ?_⟩
                intro x hx
                rcases List.mem_cons.mp hx with rfl | hx
                · exact ⟨Relation.ReflTransGen.refl, hnvis⟩
                · obtain ⟨⟨c, hc, hrr⟩, hnv⟩ := hrC x hx
                  refine ⟨Relation.ReflTransGen.head ?_ hrr, ?_⟩
                  · unfold GraphEdge
                    rw [hsucc]
                    exact hc
                  · intro hcon
                    exact hnv (List.mem_cons_of_mem _ hcon)
              · exact ⟨newBC, hbC, hfC⟩

/-! ## Traversal: classification of outcomes -/

/-- The shape of the message of a thrown cycle error. -/
def CycleMsg (msg : String) : Prop :=
  ∃ info, msg = "Dependency cycle found: [-> " ++ info ++ " ->]"

lemma length_le_keys {β : Type} (l : List String) (g : List (String × β))
    (hnd : l.Nodup) (hsub : ∀ v ∈ l, (((g.lookup v).isSome : Bool) : Prop)) :
    l.length ≤ g.length := by
  have hsub' : ∀ v ∈ l, v ∈ g.map Prod.fst := fun v hv =>
    (lookup_isSome_iff g v).mp (hsub v hv)
  calc l.length = l.toFinset.card := (List.toFinset_card_of_nodup hnd).symm
    _ ≤ (g.map Prod.fst).toFinset.card := Finset.card_le_card (by
          intro a ha
          rw [List.mem_toFinset] at ha
          rw [List.mem_toFinset]
          exact hsub' a ha)
    _ ≤ (g.map Prod.fst).length := List.toFinset_card_le _
    _ = g.length := List.length_map _ _

/-- With enough fuel, visiting a key of an edge-closed graph either
succeeds, or propagates an unwinding whose `cycleStart` is an already
visiting node reachable from the visited node, or throws a cycle error
(in which case the graph really has a cycle). -/
theorem visit_classify (graph : Graph) (bk : BranchKey) (origin : String) (inc : Option Bool)
    (hclosed : EdgesClosed graph) :
    ∀ fuel n s, VisitInv graph bk origin inc s →
      s.visiting.Nodup →
      (∀ v ∈ s.visiting, (((graph.lookup v).isSome : Bool) : Prop)) →
      (((graph.lookup n).isSome : Bool) : Prop) →
      graph.length + 1 ≤ fuel + s.visiting.length →
      (∃ s', visit graph bk .push origin inc fuel n s = .ok s') ∨
      (∃ cst info, visit graph bk .push origin inc fuel n s = .error (.unwinding cst info) ∧
        cst ∈ s.visiting ∧ Relation.ReflTransGen (GraphEdge graph bk) n cst) ∨
      (∃ msg, visit graph bk .push origin inc fuel n s = .error (.thrown msg) ∧
        CycleMsg msg ∧ ∃ w, Relation.TransGen (GraphEdge graph bk) w w) := by
  intro fuel
  induction fuel with
  | zero =>
    intro n s _ hnd hkeys _ hbound
    have := length_le_keys s.visiting graph hnd hkeys
    omega
  | succ fuel ih =>
    intro n s hinv hnd hkeys hn hbound
    simp only [visit]
    by_cases hvd : s.visited.contains n = true
    · rw [if_pos hvd]
      exact .inl ⟨s, rfl⟩
    · rw [if_neg hvd]
      by_cases hvg : s.visiting.contains n = true
      · rw [if_pos hvg]
        exact .inr (.inl ⟨n, n, rfl, by simpa using hvg, Relation.ReflTransGen.refl⟩)
      · rw [if_neg hvg]
        have hnvis : n ∉ s.visiting := by simpa using hvg
        obtain ⟨node, hlook⟩ := Option.isSome_iff_exists.mp hn
        rw [hlook]
        dsimp only
        have hsucc : succName graph bk n = node.branch bk := by
          unfold succName
          rw [hlook]
        have hchild : ∀ c ∈ node.branch bk, GraphEdge graph bk n c := by
          intro c hc
          unfold GraphEdge
          rw [hsucc]
          exact hc
        -- classification of the children loop, for any invariant state
        -- whose visiting marks are exactly `n :: s.visiting`
        have foldClassify : ∀ (children : List String),
            (∀ c ∈ children, GraphEdge graph bk n c) →
            ∀ t, VisitInv graph bk origin inc t → t.visiting = n :: s.visiting →
            (∃ t', visitFold (visit graph bk .push origin inc fuel) n children t = .ok t') ∨
            (∃ cst info,
              visitFold (visit graph bk .push origin inc fuel) n children t =
                .error (.unwinding cst info) ∧ cst ∈ s.visiting ∧
              ∃ c ∈ children, Relation.ReflTransGen (GraphEdge graph bk) c cst) ∨
            (∃ msg,
              visitFold (visit graph bk .push origin inc fuel) n children t =
                .error (.thrown msg) ∧ CycleMsg msg ∧
              ∃ w, Relation.TransGen (GraphEdge graph bk) w w) := by
          intro children
          induction children with
          | nil =>
            intro _ t _ _
            exact .inl ⟨t, rfl⟩
          | cons c cs ihc =>
            intro hcs t hinvt hvist
            have hedge : GraphEdge graph bk n c := hcs c (List.mem_cons_self _ _)
            have hndt : t.visiting.Nodup := by
              rw [hvist]
              exact List.nodup_cons.mpr ⟨hnvis, hnd⟩
            have hkeyst : ∀ v ∈ t.visiting, (((graph.lookup v).isSome : Bool) : Prop) := by
              intro v hv
              rw [hvist] at hv
              rcases List.mem_cons.mp hv with rfl | hv
              · exact hn
              · exact hkeys v hv
            have hboundt : graph.length + 1 ≤ fuel + t.visiting.length := by
              rw [hvist]
              simp only [List.length_cons]
              omega
            rcases ih c t hinvt hndt hkeyst (hclosed bk n c hedge) hboundt with
              ⟨t2, ht2⟩ | ⟨cst, info, herr, hmem, hreach⟩ | ⟨msg, herr, hmsg, hcyc⟩
            · have hpost := visit_ok_spec graph bk origin inc fuel c t t2 hinvt ht2
              simp only [visitFold]
              rw [ht2]
              dsimp only
              rcases ihc (fun c' hc' => hcs c' (List.mem_cons_of_mem _ hc')) t2 hpost.inv
                  (by rw [hpost.visiting_eq, hvist]) with
                ⟨t', ht'⟩ | ⟨cst, info, herr, hmem, c', hc', hreach⟩ |
                  ⟨msg, herr, hmsg, hcyc⟩
              · exact .inl ⟨t', ht'⟩
              · exact .inr (.inl ⟨cst, info, herr, hmem, c',
                  List.mem_cons_of_mem _ hc', hreach⟩)
              · exact .inr (.inr ⟨msg, herr, hmsg, hcyc⟩)
            · simp only [visitFold]
              rw [herr]
              dsimp only
              rw [hvist] at hmem
              by_cases hc : cst = n
              · rw [if_pos hc]
                refine .inr (.inr ⟨_, rfl, ⟨info, rfl⟩, n, ?_⟩)
                subst hc
                exact Relation.TransGen.head' hedge hreach
              · rw [if_neg hc]
                have hmem' : cst ∈ s.visiting := by
                  rcases List.mem_cons.mp hmem with rfl | hmem
                  · exact absurd rfl hc
                  · exact hmem
                exact .inr (.inl ⟨cst, _, rfl, hmem', c, List.mem_cons_self _ _, hreach⟩)
            · simp only [visitFold]
              rw [herr]
              dsimp only
              exact .inr (.inr ⟨msg, rfl, hmsg, hcyc⟩)
        rcases foldClassify (node.branch bk) hchild
            { s with visiting := n :: s.visiting } (visitInv_visiting hinv _) rfl with
          ⟨t', ht'⟩ | ⟨cst, info, herr, hmem, c, hc, hreach⟩ | ⟨msg, herr, hmsg, hcyc⟩
        · rw [ht']
          exact .inl ⟨_, rfl⟩
        · rw [herr]
          exact .inr (.inl ⟨cst, info, rfl, hmem,
            Relation.ReflTransGen.head (hchild c hc) hreach⟩)
        · rw [herr]
          exact .inr (.inr ⟨msg, rfl, hmsg, hcyc⟩)

/-! ## Traversal: unshift versus push, and edge inversion -/

/-- Relabeling that reverses the accumulated build order. -/
def relabState (s : TraversalState) : TraversalState :=
  ⟨s.visiting, s.visited, s.buildOrder.reverse⟩

lemma relabState_relabState (s : TraversalState) : relabState (relabState s) = s := by
  unfold relabState
  rw [List.reverse_reverse]

/-- The `unshift` traversal is the `push` traversal with the build order
reversed, step by step. -/
theorem visit_unshift_eq (graph : Graph) (bk : BranchKey) (origin : String)
    (inc : Option Bool) :
    ∀ fuel n vis vtd bo,
      visit graph bk .unshift origin inc fuel n ⟨vis, vtd, bo⟩ =
        Except.map relabState
          (visit graph bk .push origin inc fuel n ⟨vis, vtd, bo.reverse⟩) := by
  intro fuel
  induction fuel with
  | zero =>
    intro n vis vtd bo
    rfl
  | succ fuel ih =>
    have foldEq : ∀ (children : List String) (n1 : String) vis vtd bo,
        visitFold (visit graph bk .unshift origin inc fuel) n1 children ⟨vis, vtd, bo⟩ =
          Except.map relabState
            (visitFold (visit graph bk .push origin inc fuel) n1 children
              ⟨vis, vtd, bo.reverse⟩) := by
      intro children
      induction children with
      | nil =>
        intro n1 vis vtd bo
        simp only [visitFold, Except.map, relabState, List.reverse_reverse]
      | cons c cs ihc =>
        intro n1 vis vtd bo
        simp only [visitFold]
        rw [ih c vis vtd bo]
        cases hv : visit graph bk .push origin inc fuel c ⟨vis, vtd, bo.reverse⟩ with
        | ok s2 =>
          simp only [Except.map]
          have hres := ihc n1 s2.visiting s2.visited s2.buildOrder.reverse
          rw [List.reverse_reverse] at hres
          exact hres
        | error e =>
          simp only [Except.map]
          cases e with
          | thrown msg => rfl
          | unwinding cst cinfo =>
            dsimp only
            by_cases hc : cst = n1
            · rw [if_pos hc]
            · rw [if_neg hc]
    intro n vis vtd bo
    simp only [visit]
    by_cases hvd : vtd.contains n = true
    · rw [if_pos hvd, if_pos hvd]
      simp only [Except.map, relabState, List.reverse_reverse]
    · rw [if_neg hvd, if_neg hvd]
      by_cases hvg : vis.contains n = true
      · rw [if_pos hvg, if_pos hvg]
        rfl
      · rw [if_neg hvg, if_neg hvg]
        cases hlook : graph.lookup n with
        | none => rfl
        | some node =>
          dsimp only
          rw [foldEq (node.branch bk) n (n :: vis) vtd bo]
          cases hfold : visitFold (visit graph bk .push origin inc fuel) n
              (node.branch bk) ⟨n :: vis, vtd, bo.reverse⟩ with
          | error e => rfl
          | ok s2 =>
            simp only [Except.map]
            by_cases hemit : n ≠ origin ∨ inc ≠ some false
            · rw [if_pos hemit, if_pos hemit]
              simp only [relabState, List.reverse_append, List.reverse_cons,
                List.reverse_nil, List.nil_append, List.singleton_append]
            · rw [if_neg hemit, if_neg hemit]
              rfl

/-- The graph with every edge inverted: the two relation lists of every
node are swapped. -/
def invertGraph (graph : Graph) : Graph :=
  graph.map fun p =>
    (p.1, { p.2 with dependencies := p.2.dependents, dependents := p.2.dependencies })

lemma lookup_invertGraph (graph : Graph) (n : String) :
    (invertGraph graph).lookup n = (graph.lookup n).map fun nd =>
      { nd with dependencies := nd.dependents, dependents := nd.dependencies } := by
  induction graph with
  | nil => rfl
  | cons p l ih =>
    obtain ⟨k, v⟩ := p
    simp only [invertGraph, List.map_cons, List.lookup_cons]
    cases hbeq : n == k
    · simp only [invertGraph] at ih
      rw [ih]
    · rfl

/-- Inverting the graph swaps the two branch relations inside `visit`. -/
theorem visit_invert (graph : Graph) (direction : Direction) (origin : String)
    (inc : Option Bool) :
    ∀ fuel n s,
      visit (invertGraph graph) .dependencies direction origin inc fuel n s =
        visit graph .dependents direction origin inc fuel n s := by
  intro fuel
  induction fuel with
  | zero => intro n s; rfl
  | succ fuel ih =>
    have hfun : visit (invertGraph graph) .dependencies direction origin inc fuel =
        visit graph .dependents direction origin inc fuel := by
      funext n s
      exact ih n s
    intro n s
    simp only [visit]
    rw [lookup_invertGraph]
    cases hlook : graph.lookup n with
    | none => rfl
    | some node =>
      simp only [Option.map_some]
      rw [hfun]
      rfl

/-! ## Result construction helpers -/

lemma visitInv_init (graph : Graph) (bk : BranchKey) (origin : String) (inc : Option Bool) :
    VisitInv graph bk origin inc ⟨[], [], []⟩ := by
  refine ⟨List.nodup_nil, List.nodup_nil, ?_, ?_, ?_, ?_, ?_⟩ <;>
    intro x hx <;> exact absurd hx (List.not_mem_nil x)

lemma result_names (graph : Graph) (hkn : KeyNamed graph) (aff : List String) :
    ∀ bo : List String, (∀ m ∈ bo, (((graph.lookup m).isSome : Bool) : Prop)) →
      ((bo.map fun m => match graph.lookup m with
        | some node => filterNode aff node
        | none => dummyNode).map fun nd => nd.module.declaration.name) = bo := by
  intro bo
  induction bo with
  | nil => intro _; rfl
  | cons m bo ih =>
    intro hkeys
    obtain ⟨node, hlook⟩ := Option.isSome_iff_exists.mp (hkeys m (List.mem_cons_self _ _))
    simp only [List.map_cons, hlook]
    rw [ih fun x hx => hkeys x (List.mem_cons_of_mem _ hx)]
    have : node.module.declaration.name = m := hkn (m, node) (lookup_mem hlook)
    rw [show (filterNode aff node).module = node.module from rfl, this]

/-! ## Concrete example data used by witnesses and counterexamples -/

def mkModule (name : String) (deps : DependencyMap) : Module :=
  { baseDir := ""
    declaration := { name := name, version := "1.0.0", dependencies := some deps } }

/-- Two-module cycle `A -> B -> A`. -/
def wsAB : Workspace :=
  ⟨mkModule "root" [], [mkModule "A" [("B", "workspace:*")], mkModule "B" [("A", "workspace:*")]]⟩

/-- `O -> A` with cycle `A -> B -> A` downstream of `O`. -/
def wsOAB : Workspace :=
  ⟨mkModule "root" [],
    [mkModule "O" [("A", "workspace:*")], mkModule "A" [("B", "workspace:*")],
     mkModule "B" [("A", "workspace:*")]]⟩

/-- Diamond: `Y -> X -> Z` and `Y -> W -> Z`. -/
def wsDiamond : Workspace :=
  ⟨mkModule "root" [],
    [mkModule "Y" [("X", "workspace:*"), ("W", "workspace:*")],
     mkModule "X" [("Z", "workspace:*")], mkModule "W" [("Z", "workspace:*")],
     mkModule "Z" []]⟩

/-- Sole path `Y -> X -> Z`. -/
def wsSole : Workspace :=
  ⟨mkModule "root" [],
    [mkModule "Y" [("X", "workspace:*")], mkModule "X" [("Z", "workspace:*")],
     mkModule "Z" []]⟩

/-- Two unrelated modules. -/
def wsXY : Workspace :=
  ⟨mkModule "root" [], [mkModule "X" [], mkModule "Y" []]⟩

/-- One module, no edges. -/
def wsOne : Workspace :=
  ⟨mkModule "root" [], [mkModule "Y" []]⟩

/-- Root named `R`, single member named `A`. -/
def wsRootDistinct : Workspace :=
  ⟨mkModule "R" [], [mkModule "A" []]⟩

def optsOneY : TraversalOptions := { workspace := wsOne, moduleName := "Y" }

def optsOabO : TraversalOptions := { workspace := wsOAB, moduleName := "O" }

def optsAbA : TraversalOptions := { workspace := wsAB, moduleName := "A" }

/-- A manifest declaring an empty member-glob list. -/
def exEmptyGlobs : Module :=
  { baseDir := "", declaration := { name := "five", version := "", workspaces := some [] } }

/-- A manifest declaring a nonempty member-glob list. -/
def exMemberGlobs : Module :=
  { baseDir := ""
    declaration := { name := "four", version := "", workspaces := some ["packages/*"] } }

/-- Abstract filesystem: the empty-glob manifest five levels above the
root, the nonempty-glob manifest four levels above. -/
def exLoad : Nat → Option Module :=
  fun n => if n = 5 then some exEmptyGlobs else if n = 4 then some exMemberGlobs else none

/-! ## Claim C3 -/

/-- C3: the claim describes the intended matcher, and whenever the loop
returns a boolean the claimed equivalence holds — literals verbatim, `?`
exactly one character, `*` any possibly-empty block, for part lists of
the shape the compiler produces (no empty literal part, no adjacent `*`
parts) — with all four concrete `a*.ts` / `a?.ts` examples returning as
claimed.  But the matcher is not total as the claim assumes: on parts
`?` with entry name `xundefined`, where no explored state reaches
`(partIndex, offset) = (1, 10)` and the claim therefore predicts a
`false` return, the source instead throws a `TypeError`: the popped
state `(1, 1)` has its part index out of range, so
`input.startsWith(undefined, 1)` coerces its search string to
`"undefined"` — which occurs at offset 1 — and the next line
dereferences `undefined.length`. -/
theorem claim_C3_matchesPattern_spec :
    (∀ pattern input b, [] ∉ pattern → noAdjacentStars pattern →
        matchesPattern pattern input = .ok b →
        (b = true ↔ PatternSem pattern input)) ∧
    matchesPattern [WILD_SINGLE] "xundefined".data =
      .error "TypeError: Cannot read properties of undefined (reading \x27length\x27)" ∧
    ¬ PatternSem [WILD_SINGLE] "xundefined".data ∧
    parseGlob "a*.ts".data = .ok [.wildcard [['a'], ['*'], ['.', 't', 's']]] ∧
    parseGlob "a?.ts".data = .ok [.wildcard [['a'], ['?'], ['.', 't', 's']]] ∧
    matchesPattern [['a'], ['*'], ['.', 't', 's']] "abc.ts".data = .ok true ∧
    matchesPattern [['a'], ['*'], ['.', 't', 's']] "abc.tsx".data = .ok false ∧
    matchesPattern [['a'], ['?'], ['.', 't', 's']] "ab.ts".data = .ok true ∧
    matchesPattern [['a'], ['?'], ['.', 't', 's']] "abc.ts".data = .ok false ∧
    matchesPattern [['a'], ['?'], ['.', 't', 's']] "a.ts".data = .ok false :=
  ⟨fun pattern input b h1 h2 h3 => matchesPattern_iff_patternSem pattern input h1 h2 b h3,
    rfl,
    by
      intro h
      rcases patternSem_one_iff.mp h with ⟨c, rest, he, hrest⟩
      rw [patternSem_nil] at hrest
      subst hrest
      have hlen := congrArg List.length he
      simp at hlen,
    rfl, rfl, rfl, rfl, rfl, rfl, rfl⟩

/-- Witness for C3: the return-value equivalence applied at the concrete
pattern `a*.ts` and input `abc.ts`. -/
theorem claim_C3_witness :
    PatternSem [['a'], ['*'], ['.', 't', 's']] "abc.ts".data :=
  (claim_C3_matchesPattern_spec.1 [['a'], ['*'], ['.', 't', 's']] "abc.ts".data true
    (by decide) (by decide) rfl).mp rfl

/-! ## Claim C6 -/

/-- C6: the code is at odds with the claim and with its own comments:
the every-remaining-offset loop of the `*` branch is not an `else`
fallback — it always runs.  At the failing input (parts `* b`, input
`ab`, state `(0, 0)`) the pruned loop pushes only the state at offset 1
(where `b` occurs), but the unconditional loop then pushes states at
offsets 0 and 1 as well, although the next part is a literal. -/
theorem claim_C6_fallback_always_pushed :
    (∀ (input nextPart : List Char) (next offset : Nat) (m : PatternMatch),
      m ∈ starFallback input next offset → m ∈ starPushes input nextPart next offset) ∧
    (['b'] ≠ WILD_SINGLE ∧ ['b'] ≠ WILD_MANY) ∧
    starPruned "ab".data 1 0 ['b'] = [⟨1, 1⟩] ∧
    starFallback "ab".data 1 0 = [⟨1, 0⟩, ⟨1, 1⟩] ∧
    starPushes "ab".data ['b'] 1 0 = [⟨1, 1⟩, ⟨1, 0⟩, ⟨1, 1⟩] ∧
    (⟨1, 0⟩ : PatternMatch) ∈ starPushes "ab".data ['b'] 1 0 ∧
    "ab".data[0]? ≠ some 'b' :=
  ⟨fun _ _ _ _ _ h => List.mem_append.mpr (.inl (List.mem_reverse.mpr h)),
    by decide, by decide, by decide, by decide, by decide, by decide⟩

/-- Witness for C6: the general inclusion applied at the failing input. -/
theorem claim_C6_witness :
    (⟨1, 0⟩ : PatternMatch) ∈ starPushes "ab".data ['b'] 1 0 :=
  claim_C6_fallback_always_pushed.1 "ab".data ['b'] 1 0 ⟨1, 0⟩ (by decide)

/-! ## Claim C7 -/

/-- Counterexample to C7 as stated: the walk stops at a module whose
member-glob list is declared but empty (`workspaces: []` is truthy in
JS), although a module with a nonempty member-glob list sits one level
further up; consequently the discovery returns it instead of
not-found or the nonempty-glob module. -/
theorem claim_C7_counterexample :
    discoverWorkspaceRoot exLoad 5 none = some exEmptyGlobs ∧
    exEmptyGlobs.declaration.workspaces = some [] ∧
    exLoad 4 = some exMemberGlobs ∧
    exMemberGlobs.declaration.workspaces = some ["packages/*"] ∧
    discoverWorkspaceRoot exLoad 5 none ≠ some exMemberGlobs :=
  ⟨rfl, rfl, rfl, rfl, by decide⟩

/-- C7 (amended): the walk loads a module at each ancestor level and
stops exactly at the first examined level whose loaded module declares a
`workspaces` field (present, possibly empty); it examines at most
`max 1 (maxDepth or 5)` levels and never climbs above the filesystem
root; it returns not-found exactly when no examined level qualifies. -/
theorem claim_C7_discoverWorkspaceRoot_spec (dirLoad : Nat → Option Module)
    (cwd : Nat) (maxDepth : Option Nat) (m : Module) :
    discoverWorkspaceRoot dirLoad cwd maxDepth = some m ↔
      ∃ i, i < max 1 (maxDepth.getD 5) ∧ i ≤ cwd ∧ dirLoad (cwd - i) = some m ∧
        m.declaration.workspaces.isSome = true ∧
        ∀ j, j < i → ∀ m', dirLoad (cwd - j) = some m' →
          m'.declaration.workspaces = none := by
  unfold discoverWorkspaceRoot
  exact ascend_some_iff dirLoad (max 1 (maxDepth.getD 5)) cwd m

/-- Witness for C7: the characterization applied at the concrete
filesystem; the first examined level declaring the field is level 5. -/
theorem claim_C7_witness :
    ∃ i, i < max 1 ((none : Option Nat).getD 5) ∧ i ≤ 5 ∧ exLoad (5 - i) = some exEmptyGlobs ∧
      exEmptyGlobs.declaration.workspaces.isSome = true ∧
      ∀ j, j < i → ∀ m', exLoad (5 - j) = some m' →
        m'.declaration.workspaces = none :=
  (claim_C7_discoverWorkspaceRoot_spec exLoad 5 none exEmptyGlobs).mp rfl

/-! ## Claim C8 -/

/-- Counterexample to C8 as stated: the wildcard-free pattern `a/b`
contains a path separator, so the compiler splits it into two Static
segments rather than one. -/
theorem claim_C8_counterexample :
    parseGlob "a/b".data = .ok [.static ['a'], .static ['b']] ∧
    ¬∃ s, parseGlob "a/b".data = .ok [GlobSegment.static s] := by
  refine ⟨rfl, ?_⟩
  rintro ⟨s, h⟩
  rw [show parseGlob "a/b".data = .ok [.static ['a'], .static ['b']] from rfl] at h
  simp at h

/-- C8 (amended): every nonempty pattern containing no wildcard marker
and no path separator compiles to a single Static segment whose value is
exactly the original pattern. -/
theorem claim_C8_static_roundtrip (pattern : List Char) (hne : pattern ≠ [])
    (hplain : ∀ c ∈ pattern, plainChar c) :
    parseGlob pattern = .ok [.static pattern] :=
  parseGlob_plain pattern hne hplain

/-- Witness for C8: the round-trip at the concrete pattern `ab.ts`. -/
theorem claim_C8_witness :
    parseGlob "ab.ts".data = .ok [.static "ab.ts".data] :=
  claim_C8_static_roundtrip "ab.ts".data (by decide) (by decide)

/-! ## Claim C10 -/

/-- C10: when the root module's name differs from every member's name,
both traversals throw the not-found error for the root's name, even
though `getModule`/`getModuleOrNull` find the root — the traversal graph
is built from the member modules only. -/
theorem claim_C10_root_not_in_graph (opts : TraversalOptions)
    (hroot : ∀ m ∈ opts.workspace.modules,
      m.declaration.name ≠ opts.workspace.root.declaration.name)
    (hname : opts.moduleName = opts.workspace.root.declaration.name) :
    getDependencies opts = .error (.thrown
      ("No module \x27" ++ opts.moduleName ++ "\x27 could be found in the workspace.")) ∧
    getDependents opts = .error (.thrown
      ("No module \x27" ++ opts.moduleName ++ "\x27 could be found in the workspace.")) ∧
    getModuleOrNull opts.workspace opts.moduleName = some opts.workspace.root ∧
    getModule opts.workspace opts.moduleName = .ok opts.workspace.root := by
  have hlook : (buildGraph opts.workspace opts.toGraphOptions).lookup opts.moduleName
      = none := by
    rw [lookup_eq_none_iff, buildGraph_keys]
    intro hmem
    rcases List.mem_map.mp hmem with ⟨m, hm, hn⟩
    exact hroot m hm (hn.trans hname)
  constructor
  · unfold getDependencies createTraversal createTraversalOn
    rw [hlook]
  constructor
  · unfold getDependents createTraversal createTraversalOn
    rw [hlook]
  constructor
  · unfold getModuleOrNull
    rw [if_pos hname.symm]
  · unfold getModule getModuleOrNull
    rw [if_pos hname.symm]

/-- Witness for C10 at the concrete workspace with root `R` and member
`A`. -/
theorem claim_C10_witness :
    getDependencies { workspace := wsRootDistinct, moduleName := "R" } = .error (.thrown
      ("No module \x27" ++ "R" ++ "\x27 could be found in the workspace.")) ∧
    getDependents { workspace := wsRootDistinct, moduleName := "R" } = .error (.thrown
      ("No module \x27" ++ "R" ++ "\x27 could be found in the workspace.")) ∧
    getModuleOrNull wsRootDistinct "R" = some wsRootDistinct.root ∧
    getModule wsRootDistinct "R" = .ok wsRootDistinct.root :=
  claim_C10_root_not_in_graph { workspace := wsRootDistinct, moduleName := "R" }
    (by decide) rfl

/-! ## Shared helpers for the traversal claims -/

lemma visited_reach {graph : Graph} {bk : BranchKey} {origin : String} {inc : Option Bool}
    {s : TraversalState} (hinv : VisitInv graph bk origin inc s) (horg : origin ∈ s.visited) :
    ∀ x, Relation.ReflTransGen (GraphEdge graph bk) origin x → x ∈ s.visited := by
  intro x h
  induction h with
  | refl => exact horg
  | tail _ h2 ih => exact hinv.closed _ ih _ h2

lemma buildOrder_no_cycle {graph : Graph} {bk : BranchKey} {origin : String}
    {inc : Option Bool} {s : TraversalState} (hinv : VisitInv graph bk origin inc s)
    (hemitsAll : ∀ x, emits origin inc x) :
    ∀ a c, a ∈ s.buildOrder → Relation.TransGen (GraphEdge graph bk) a c →
      c ∈ s.buildOrder ∧ s.buildOrder.indexOf c < s.buildOrder.indexOf a := by
  intro a c ha h
  induction h with
  | single h1 =>
    have hcv := hinv.closed a (hinv.buildVisited a ha) _ h1
    have hcb := hinv.visitedBuild _ hcv (hemitsAll _)
    exact ⟨hcb, hinv.order a ha _ h1 hcb⟩
  | tail _ h2 ih =>
    obtain ⟨hb, hlt⟩ := ih
    have hcv := hinv.closed _ (hinv.buildVisited _ hb) _ h2
    have hcb := hinv.visitedBuild _ hcv (hemitsAll _)
    exact ⟨hcb, lt_trans (hinv.order _ hb _ h2 hcb) hlt⟩

lemma graphEdge_lookup_isSome {graph : Graph} {bk : BranchKey} {a b : String}
    (h : GraphEdge graph bk a b) : (((graph.lookup a).isSome : Bool) : Prop) := by
  unfold GraphEdge succName at h
  cases hl : graph.lookup a with
  | none =>
    rw [hl] at h
    exact absurd h (List.not_mem_nil b)
  | some nd => rfl

lemma transGen_first_edge {α : Type} {r : α → α → Prop} {a b : α}
    (h : Relation.TransGen r a b) : ∃ c, r a c := by
  induction h using Relation.TransGen.head_induction_on with
  | base h => exact ⟨_, h⟩
  | ih h' _ _ => exact ⟨_, h'⟩

/-- Every edge of a built graph arises from a module whose selected map
carries a `workspace:` specifier for a non-excluded module. -/
lemma graphEdge_spec {ws : Workspace} {opts : GraphOptions} {bk : BranchKey} {a b : String}
    (h : GraphEdge (buildGraph ws opts) bk a b) :
    ∃ u ∈ ws.modules, ∃ k, ∃ dm, u.declaration.mapOf k = some dm ∧
      ∃ v ∈ ws.modules, edgeTest (opts.exclude.getD []) dm v = true := by
  unfold GraphEdge succName at h
  cases hl : (buildGraph ws opts).lookup a with
  | none =>
    rw [hl] at h
    exact absurd h (List.not_mem_nil b)
  | some nd =>
    rw [hl] at h
    obtain ⟨m, hm, hpair⟩ := mem_buildGraph (lookup_mem hl)
    have hnd := congrArg Prod.snd hpair
    simp only at hnd
    rw [hnd] at h
    cases bk with
    | dependencies =>
      simp only [GraphNode.branch] at h
      unfold nodeDependencies at h
      split at h
      · exact absurd h (List.not_mem_nil b)
      · rcases List.mem_flatMap.mp h with ⟨k, -, hk⟩
        cases hmap : m.declaration.mapOf k with
        | none =>
          rw [hmap] at hk
          exact absurd hk (List.not_mem_nil b)
        | some dm =>
          rw [hmap] at hk
          rcases List.mem_flatMap.mp hk with ⟨v, hv, hx⟩
          cases ht : edgeTest (opts.exclude.getD []) dm v with
          | false =>
            rw [ht] at hx
            exact absurd hx (List.not_mem_nil b)
          | true => exact ⟨m, hm, k, dm, hmap, v, hv, ht⟩
    | dependents =>
      simp only [GraphNode.branch] at h
      unfold nodeDependents at h
      rcases List.mem_flatMap.mp h with ⟨u, hu, hk⟩
      cases hex : (opts.exclude.getD []).contains u.declaration.name with
      | true =>
        rw [hex] at hk
        rw [if_pos rfl] at hk
        exact absurd hk (List.not_mem_nil b)
      | false =>
        rw [hex] at hk
        rw [if_neg Bool.false_ne_true] at hk
        rcases List.mem_flatMap.mp hk with ⟨k, -, hkk⟩
        cases hmap : u.declaration.mapOf k with
        | none =>
          rw [hmap] at hkk
          exact absurd hkk (List.not_mem_nil b)
        | some dm =>
          rw [hmap] at hkk
          dsimp only at hkk
          cases ht : edgeTest (opts.exclude.getD []) dm m with
          | false =>
            rw [ht] at hkk
            exact absurd hkk (List.not_mem_nil b)
          | true => exact ⟨u, hu, k, dm, hmap, m, hm, ht⟩

/-! ## Claim C1 -/

/-- C1: on a workspace (unique member names — duplicates are undefined
behavior) whose built dependency graph over the selected maps is
acyclic, `getDependencies` with its default `includeSelf` succeeds; the
returned ordered list contains each module reachable from the origin
exactly once (no duplicates, membership is exactly reachability), and
for every edge `u -> v` between nodes of the result, `v` precedes `u`
in the order. -/
theorem claim_C1_topological (opts : TraversalOptions)
    (horigin : opts.moduleName ∈ opts.workspace.modules.map fun m => m.declaration.name)
    (hinc : opts.includeSelf ≠ some false)
    (hacyc : Acyclic (buildGraph opts.workspace opts.toGraphOptions) .dependencies) :
    ∃ r, getDependencies opts = .ok r ∧
      (r.buildOrder.map fun nd => nd.module.declaration.name).Nodup ∧
      (∀ x, Relation.ReflTransGen
          (GraphEdge (buildGraph opts.workspace opts.toGraphOptions) .dependencies)
          opts.moduleName x ↔
        x ∈ r.buildOrder.map fun nd => nd.module.declaration.name) ∧
      (∀ u v,
        GraphEdge (buildGraph opts.workspace opts.toGraphOptions) .dependencies u v →
        u ∈ (r.buildOrder.map fun nd => nd.module.declaration.name) →
        v ∈ (r.buildOrder.map fun nd => nd.module.declaration.name) →
        (r.buildOrder.map fun nd => nd.module.declaration.name).indexOf v <
          (r.buildOrder.map fun nd => nd.module.declaration.name).indexOf u) := by
  have hkey : (((buildGraph opts.workspace opts.toGraphOptions).lookup
      opts.moduleName).isSome : Bool) = true := by
    rw [lookup_isSome_iff, buildGraph_keys]
    exact horigin
  rcases visit_classify (buildGraph opts.workspace opts.toGraphOptions) .dependencies
      opts.moduleName opts.includeSelf (buildGraph_edgesClosed _ _)
      ((buildGraph opts.workspace opts.toGraphOptions).length + 1) opts.moduleName
      ⟨[], [], []⟩ (visitInv_init _ _ _ _) List.nodup_nil
      (fun v hv => absurd hv (List.not_mem_nil v)) hkey (by simp) with
    ⟨s, hok⟩ | ⟨cst, info, _, hmem, _⟩ | ⟨msg, _, _, w, hcyc⟩
  · have hpost := visit_ok_spec (buildGraph opts.workspace opts.toGraphOptions)
      .dependencies opts.moduleName opts.includeSelf _ opts.moduleName _ s
      (visitInv_init _ _ _ _) hok
    obtain ⟨onode, hlook⟩ := Option.isSome_iff_exists.mp hkey
    have hres : getDependencies opts = .ok
        { buildOrder := s.buildOrder.map fun m =>
            match (buildGraph opts.workspace opts.toGraphOptions).lookup m with
            | some node => filterNode s.buildOrder node
            | none => dummyNode
          root := if s.buildOrder.contains opts.moduleName then
              filterNode s.buildOrder onode
            else onode } := by
      unfold getDependencies createTraversal createTraversalOn
      rw [hlook]
      dsimp only
      rw [hok]
    have hnames : ((s.buildOrder.map fun m =>
        match (buildGraph opts.workspace opts.toGraphOptions).lookup m with
        | some node => filterNode s.buildOrder node
        | none => dummyNode).map fun nd => nd.module.declaration.name) = s.buildOrder :=
      result_names _ (buildGraph_keyNamed _ _) s.buildOrder s.buildOrder
        fun m hm => hpost.inv.visitedKeys m (hpost.inv.buildVisited m hm)
    have hemits : ∀ y, emits opts.moduleName opts.includeSelf y := fun y => .inr hinc
    refine ⟨_, hres, ?_, ?_, ?_⟩
    · rw [hnames]
      exact hpost.inv.nodupB
    · intro x
      rw [hnames]
      constructor
      · intro hr
        exact hpost.inv.visitedBuild x
          (visited_reach hpost.inv hpost.memv x hr) (hemits x)
      · intro hx
        obtain ⟨new, heq, hreach⟩ := hpost.mono
        have hxv := hpost.inv.buildVisited x hx
        rw [heq] at hxv
        rcases List.mem_append.mp hxv with hxv | hxv
        · exact (hreach x hxv).1
        · exact absurd hxv (List.not_mem_nil x)
    · intro u v hedge hu hv
      rw [hnames] at hu hv ⊢
      exact hpost.inv.order u hu v hedge hv
  · exact absurd hmem (List.not_mem_nil cst)
  · exact absurd hcyc (hacyc w)

/-- Witness for C1 at the one-module workspace (trivially acyclic). -/
theorem claim_C1_witness :
    ∃ r, getDependencies optsOneY = .ok r ∧
      (r.buildOrder.map fun nd => nd.module.declaration.name).Nodup ∧
      (∀ x, Relation.ReflTransGen
          (GraphEdge (buildGraph optsOneY.workspace optsOneY.toGraphOptions) .dependencies)
          optsOneY.moduleName x ↔
        x ∈ r.buildOrder.map fun nd => nd.module.declaration.name) ∧
      (∀ u v,
        GraphEdge (buildGraph optsOneY.workspace optsOneY.toGraphOptions) .dependencies u v →
        u ∈ (r.buildOrder.map fun nd => nd.module.declaration.name) →
        v ∈ (r.buildOrder.map fun nd => nd.module.declaration.name) →
        (r.buildOrder.map fun nd => nd.module.declaration.name).indexOf v <
          (r.buildOrder.map fun nd => nd.module.declaration.name).indexOf u) := by
  have hnoedge : ∀ a b,
      ¬ GraphEdge (buildGraph optsOneY.workspace optsOneY.toGraphOptions)
        .dependencies a b := by
    intro a b h
    obtain ⟨u, hu, k, dm, hmap, v, -, htest⟩ := graphEdge_spec h
    have hu' : u = mkModule "Y" [] := by
      simpa [optsOneY, wsOne] using hu
    subst hu'
    cases k <;> simp only [mkModule, PackageDeclaration.mapOf] at hmap <;>
      try exact Option.noConfusion hmap
    have hdm : dm = [] := by
      cases hmap
      rfl
    subst hdm
    unfold edgeTest at htest
    simp [List.lookup] at htest
  exact claim_C1_topological optsOneY (by decide) (by decide)
    (fun n hT => by
      rcases transGen_first_edge hT with ⟨c, hc⟩
      exact hnoedge n c hc)

/-! ## Claim C2 -/

/-- C2 (amended): a cycle reachable from the origin *along the traversed
relation* makes the traversal throw a cycle error (with no partial
result — the call returns only the error): `getDependencies` follows
the `dependencies` relation and `getDependents` the `dependents`
relation.  For the two-module cycle `A -> B -> A` both throw, and the
message lists the cycle as `[-> A -> B ->]` — `A` and `B` in cycle
order. -/
theorem claim_C2_cycle_throws (opts : TraversalOptions) (hinc : opts.includeSelf = none) :
    (∀ x, Relation.ReflTransGen
        (GraphEdge (buildGraph opts.workspace opts.toGraphOptions) .dependencies)
        opts.moduleName x →
      Relation.TransGen
        (GraphEdge (buildGraph opts.workspace opts.toGraphOptions) .dependencies) x x →
      ∃ msg, getDependencies opts = .error (.thrown msg) ∧ CycleMsg msg) ∧
    (∀ x, Relation.ReflTransGen
        (GraphEdge (buildGraph opts.workspace opts.toGraphOptions) .dependents)
        opts.moduleName x →
      Relation.TransGen
        (GraphEdge (buildGraph opts.workspace opts.toGraphOptions) .dependents) x x →
      ∃ msg, getDependents opts = .error (.thrown msg) ∧ CycleMsg msg) ∧
    getDependencies { workspace := wsAB, moduleName := "A" } =
      .error (.thrown "Dependency cycle found: [-> A -> B ->]") ∧
    getDependents { workspace := wsAB, moduleName := "A" } =
      .error (.thrown "Dependency cycle found: [-> A -> B ->]") := by
  have hemits : ∀ y, emits opts.moduleName opts.includeSelf y := by
    intro y
    right
    rw [hinc]
    simp
  have hkeyOf : ∀ bk x,
      Relation.ReflTransGen
        (GraphEdge (buildGraph opts.workspace opts.toGraphOptions) bk)
        opts.moduleName x →
      Relation.TransGen
        (GraphEdge (buildGraph opts.workspace opts.toGraphOptions) bk) x x →
      (((buildGraph opts.workspace opts.toGraphOptions).lookup
        opts.moduleName).isSome : Bool) = true := by
    intro bk x hreach hcyc
    rcases Relation.ReflTransGen.cases_head hreach with heq | ⟨c, hc, -⟩
    · subst heq
      rcases transGen_first_edge hcyc with ⟨c, hc⟩
      exact graphEdge_lookup_isSome hc
    · exact graphEdge_lookup_isSome hc
  refine ⟨?_, ?_, by rfl, by rfl⟩
  · intro x hreach hcyc
    have hkey := hkeyOf .dependencies x hreach hcyc
    obtain ⟨onode, hlook⟩ := Option.isSome_iff_exists.mp hkey
    rcases visit_classify (buildGraph opts.workspace opts.toGraphOptions) .dependencies
        opts.moduleName opts.includeSelf (buildGraph_edgesClosed _ _)
        ((buildGraph opts.workspace opts.toGraphOptions).length + 1) opts.moduleName
        ⟨[], [], []⟩ (visitInv_init _ _ _ _) List.nodup_nil
        (fun v hv => absurd hv (List.not_mem_nil v)) hkey (by simp) with
      ⟨s, hok⟩ | ⟨cst, info, _, hmem, _⟩ | ⟨msg, herr, hmsg, -⟩
    · exfalso
      have hpost := visit_ok_spec (buildGraph opts.workspace opts.toGraphOptions)
        .dependencies opts.moduleName opts.includeSelf _ opts.moduleName _ s
        (visitInv_init _ _ _ _) hok
      have hxb : x ∈ s.buildOrder := hpost.inv.visitedBuild x
        (visited_reach hpost.inv hpost.memv x hreach) (hemits x)
      obtain ⟨-, hlt⟩ := buildOrder_no_cycle hpost.inv hemits x x hxb hcyc
      exact lt_irrefl _ hlt
    · exact absurd hmem (List.not_mem_nil cst)
    · refine ⟨msg, ?_, hmsg⟩
      unfold getDependencies createTraversal createTraversalOn
      rw [hlook]
      dsimp only
      rw [herr]
  · intro x hreach hcyc
    have hkey := hkeyOf .dependents x hreach hcyc
    obtain ⟨onode, hlook⟩ := Option.isSome_iff_exists.mp hkey
    have hV := visit_unshift_eq (buildGraph opts.workspace opts.toGraphOptions)
      .dependents opts.moduleName opts.includeSelf
      ((buildGraph opts.workspace opts.toGraphOptions).length + 1) opts.moduleName [] [] []
    rw [List.reverse_nil] at hV
    rcases visit_classify (buildGraph opts.workspace opts.toGraphOptions) .dependents
        opts.moduleName opts.includeSelf (buildGraph_edgesClosed _ _)
        ((buildGraph opts.workspace opts.toGraphOptions).length + 1) opts.moduleName
        ⟨[], [], []⟩ (visitInv_init _ _ _ _) List.nodup_nil
        (fun v hv => absurd hv (List.not_mem_nil v)) hkey (by simp) with
      ⟨s, hok⟩ | ⟨cst, info, _, hmem, _⟩ | ⟨msg, herr, hmsg, -⟩
    · exfalso
      have hpost := visit_ok_spec (buildGraph opts.workspace opts.toGraphOptions)
        .dependents opts.moduleName opts.includeSelf _ opts.moduleName _ s
        (visitInv_init _ _ _ _) hok
      have hxb : x ∈ s.buildOrder := hpost.inv.visitedBuild x
        (visited_reach hpost.inv hpost.memv x hreach) (hemits x)
      obtain ⟨-, hlt⟩ := buildOrder_no_cycle hpost.inv hemits x x hxb hcyc
      exact lt_irrefl _ hlt
    · exact absurd hmem (List.not_mem_nil cst)
    · refine ⟨msg, ?_, hmsg⟩
      unfold getDependents createTraversal createTraversalOn
      rw [hlook]
      dsimp only
      rw [hV, herr]
      rfl

/-- Counterexample to C2 as stated: with origin `O` above the cycle
`A -> B -> A`, the cycle is reachable from `O` in the dependency graph,
and `getDependencies(O)` does throw — but `getDependents(O)` returns an
ordinary result, because along the `dependents` relation the cycle is
not reachable from `O`. -/
theorem claim_C2_counterexample :
    Relation.TransGen
      (GraphEdge (buildGraph optsOabO.workspace optsOabO.toGraphOptions) .dependencies)
      "A" "A" ∧
    Relation.ReflTransGen
      (GraphEdge (buildGraph optsOabO.workspace optsOabO.toGraphOptions) .dependencies)
      "O" "A" ∧
    getDependencies optsOabO =
      .error (.thrown "Dependency cycle found: [-> A -> B ->]") ∧
    (∃ r, getDependents optsOabO = .ok r) := by
  refine ⟨?_, ?_, by rfl, ⟨_, rfl⟩⟩
  · have e1 : GraphEdge (buildGraph optsOabO.workspace optsOabO.toGraphOptions)
        .dependencies "A" "B" := by decide
    have e2 : GraphEdge (buildGraph optsOabO.workspace optsOabO.toGraphOptions)
        .dependencies "B" "A" := by decide
    exact Relation.TransGen.tail (Relation.TransGen.single e1) e2
  · have e0 : GraphEdge (buildGraph optsOabO.workspace optsOabO.toGraphOptions)
        .dependencies "O" "A" := by decide
    exact Relation.ReflTransGen.single e0

/-- Witness for C2: the amended theorem applied at the concrete
workspace `A -> B -> A` with origin `A` on the cycle. -/
theorem claim_C2_witness :
    ∃ msg, getDependencies optsAbA = .error (.thrown msg) ∧ CycleMsg msg := by
  have e1 : GraphEdge (buildGraph optsAbA.workspace optsAbA.toGraphOptions)
      .dependencies "A" "B" := by decide
  have e2 : GraphEdge (buildGraph optsAbA.workspace optsAbA.toGraphOptions)
      .dependencies "B" "A" := by decide
  exact (claim_C2_cycle_throws optsAbA rfl).1 "A" Relation.ReflTransGen.refl
    (Relation.TransGen.tail (Relation.TransGen.single e1) e2)

/-! ## Claim C4 -/

lemma invertGraph_keyNamed {G : Graph} (h : KeyNamed G) : KeyNamed (invertGraph G) := by
  intro p hp
  rcases List.mem_map.mp hp with ⟨q, hq, rfl⟩
  exact h q hq

lemma invertGraph_length (G : Graph) : (invertGraph G).length = G.length :=
  List.length_map _ _

lemma lookup_invertGraph_isSome (G : Graph) (n : String) :
    ((invertGraph G).lookup n).isSome = (G.lookup n).isSome := by
  rw [lookup_invertGraph]
  cases G.lookup n <;> rfl

/-- The name sequence of an `unshift` traversal over the `dependents`
relation equals the reversed name sequence of a `push` traversal over
the `dependencies` relation of the edge-inverted graph. -/
lemma unshift_names_eq_inverted_reverse (G : Graph) (nm : String) (inc : Option Bool)
    (hkn : KeyNamed G) :
    Except.map (fun r => r.buildOrder.map fun nd => nd.module.declaration.name)
      (createTraversalOn .dependents .unshift G nm inc) =
      Except.map (fun names => names.reverse)
        (Except.map (fun r => r.buildOrder.map fun nd => nd.module.declaration.name)
          (createTraversalOn .dependencies .push (invertGraph G) nm inc)) := by
  unfold createTraversalOn
  rw [lookup_invertGraph G nm]
  cases hlook : G.lookup nm with
  | none => rfl
  | some nd =>
    dsimp only [Option.map]
    rw [invertGraph_length G]
    rw [visit_invert G .push nm inc (G.length + 1) nm ⟨[], [], []⟩]
    have hV := visit_unshift_eq G .dependents nm inc (G.length + 1) nm [] [] []
    rw [List.reverse_nil] at hV
    rw [hV]
    cases hv : visit G .dependents .push nm inc (G.length + 1) nm ⟨[], [], []⟩ with
    | error e => rfl
    | ok s =>
      have hpost := visit_ok_spec G .dependents nm inc _ nm _ s
        (visitInv_init _ _ _ _) hv
      have hkeys : ∀ m ∈ s.buildOrder, (((G.lookup m).isSome : Bool) : Prop) :=
        fun m hm => hpost.inv.visitedKeys m (hpost.inv.buildVisited m hm)
      simp only [Except.map]
      dsimp only [relabState]
      have h1 := result_names G hkn s.buildOrder.reverse s.buildOrder.reverse
        fun m hm => hkeys m (List.mem_reverse.mp hm)
      have h2 := result_names (invertGraph G) (invertGraph_keyNamed hkn) s.buildOrder
        s.buildOrder fun m hm => by
          rw [show ((invertGraph G).lookup m).isSome = (G.lookup m).isSome from
            lookup_invertGraph_isSome G m]
          exact hkeys m hm
      rw [h1, h2]

/-- C4: the ordered name list returned by `getDependents` equals the
name list of the dependency-first (push) traversal of the same built
graph with every edge inverted, reversed — including agreement on the
error cases. -/
theorem claim_C4_dependents_inverted (opts : TraversalOptions) :
    Except.map (fun r => r.buildOrder.map fun nd => nd.module.declaration.name)
      (getDependents opts) =
      Except.map (fun names => names.reverse)
        (Except.map (fun r => r.buildOrder.map fun nd => nd.module.declaration.name)
          (createTraversalOn .dependencies .push
            (invertGraph (buildGraph opts.workspace opts.toGraphOptions))
            opts.moduleName opts.includeSelf)) :=
  unshift_names_eq_inverted_reverse (buildGraph opts.workspace opts.toGraphOptions)
    opts.moduleName opts.includeSelf (buildGraph_keyNamed _ _)

def optsDiamondZ : TraversalOptions := { workspace := wsDiamond, moduleName := "Z" }

/-- Witness for C4 at the concrete diamond workspace, origin `Z`. -/
theorem claim_C4_witness :
    Except.map (fun r => r.buildOrder.map fun nd => nd.module.declaration.name)
      (getDependents optsDiamondZ) =
      Except.map (fun names => names.reverse)
        (Except.map (fun r => r.buildOrder.map fun nd => nd.module.declaration.name)
          (createTraversalOn .dependencies .push
            (invertGraph (buildGraph optsDiamondZ.workspace optsDiamondZ.toGraphOptions))
            optsDiamondZ.moduleName optsDiamondZ.includeSelf)) :=
  claim_C4_dependents_inverted optsDiamondZ

/-! ## Claim C5 -/

/-- Unfolding of a successful `getDependencies`: the final visit state
and the shape of the returned node list. -/
lemma getDependencies_ok_state {opts : TraversalOptions} {r : TraversalResult}
    (h : getDependencies opts = .ok r) :
    ∃ s, visit (buildGraph opts.workspace opts.toGraphOptions) .dependencies .push
        opts.moduleName opts.includeSelf
        ((buildGraph opts.workspace opts.toGraphOptions).length + 1) opts.moduleName
        ⟨[], [], []⟩ = .ok s ∧
      VisitPost (buildGraph opts.workspace opts.toGraphOptions) .dependencies
        opts.moduleName opts.includeSelf opts.moduleName ⟨[], [], []⟩ s ∧
      (r.buildOrder.map fun nd => nd.module.declaration.name) = s.buildOrder := by
  unfold getDependencies createTraversal createTraversalOn at h
  cases hlook : (buildGraph opts.workspace opts.toGraphOptions).lookup opts.moduleName with
  | none =>
    rw [hlook] at h
    exact absurd h (by simp)
  | some onode =>
    rw [hlook] at h
    dsimp only at h
    cases hv : visit (buildGraph opts.workspace opts.toGraphOptions) .dependencies .push
        opts.moduleName opts.includeSelf
        ((buildGraph opts.workspace opts.toGraphOptions).length + 1) opts.moduleName
        ⟨[], [], []⟩ with
    | error e =>
      rw [hv] at h
      exact absurd h (by simp)
    | ok s =>
      rw [hv] at h
      dsimp only at h
      cases h
      have hpost := visit_ok_spec (buildGraph opts.workspace opts.toGraphOptions)
        .dependencies opts.moduleName opts.includeSelf _ opts.moduleName _ s
        (visitInv_init _ _ _ _) hv
      exact ⟨s, rfl, hpost,
        result_names _ (buildGraph_keyNamed _ _) s.buildOrder s.buildOrder
          fun m hm => hpost.inv.visitedKeys m (hpost.inv.buildVisited m hm)⟩

/-- C5 (amended): the builder creates a node for every module, excluded
names included, but an excluded name never occurs in any node's
relation lists; consequently, for an origin other than the excluded
module, the excluded module never appears in a `getDependencies`
result.  At the concrete workspaces: with the sole path `Y -> X -> Z`
and `X` excluded, `Z` disappears from `getDependencies(Y)`; with the
alternate path `Y -> W -> Z` also present, `Z` stays. -/
theorem claim_C5_exclusion :
    (∀ (ws : Workspace) (gopts : GraphOptions) (x : String),
      x ∈ gopts.exclude.getD [] →
      ∀ p ∈ buildGraph ws gopts, x ∉ p.2.dependencies ∧ x ∉ p.2.dependents) ∧
    (∀ (opts : TraversalOptions) (x : String) (r : TraversalResult),
      x ∈ opts.exclude.getD [] → opts.moduleName ≠ x →
      getDependencies opts = .ok r →
      x ∉ r.buildOrder.map fun nd => nd.module.declaration.name) ∧
    Except.map (fun r => r.buildOrder.map fun nd => nd.module.declaration.name)
      (getDependencies { workspace := wsSole, moduleName := "Y", exclude := some ["X"] })
      = .ok ["Y"] ∧
    Except.map (fun r => r.buildOrder.map fun nd => nd.module.declaration.name)
      (getDependencies { workspace := wsDiamond, moduleName := "Y", exclude := some ["X"] })
      = .ok ["Z", "W", "Y"] := by
  have hpart1 : ∀ (ws : Workspace) (gopts : GraphOptions) (x : String),
      x ∈ gopts.exclude.getD [] →
      ∀ p ∈ buildGraph ws gopts, x ∉ p.2.dependencies ∧ x ∉ p.2.dependents := by
    intro ws gopts x hx p hp
    have hcx : (gopts.exclude.getD []).contains x = true := by
      simpa using hx
    obtain ⟨m, hm, rfl⟩ := mem_buildGraph hp
    constructor
    · intro hmem
      obtain ⟨v, -, hxy, hfalse⟩ := mem_nodeDependencies_name hmem
      rw [← hxy] at hfalse
      rw [hcx] at hfalse
      exact Bool.noConfusion hfalse
    · intro hmem
      obtain ⟨u, -, hxy, hfalse⟩ := mem_nodeDependents_name hmem
      rw [← hxy] at hfalse
      rw [hcx] at hfalse
      exact Bool.noConfusion hfalse
  refine ⟨hpart1, ?_, by rfl, by rfl⟩
  intro opts x r hx hne h
  obtain ⟨s, -, hpost, hnames⟩ := getDependencies_ok_state h
  rw [hnames]
  intro hxs
  have hxv := hpost.inv.buildVisited x hxs
  obtain ⟨new, heq, hreach⟩ := hpost.mono
  rw [heq] at hxv
  rcases List.mem_append.mp hxv with hxn | hxn
  · have hr := (hreach x hxn).1
    rcases Relation.ReflTransGen.cases_tail hr with heq2 | ⟨c, -, hedge⟩
    · exact hne heq2.symm
    · unfold GraphEdge succName at hedge
      cases hl : (buildGraph opts.workspace opts.toGraphOptions).lookup c with
      | none =>
        rw [hl] at hedge
        exact absurd hedge (List.not_mem_nil x)
      | some nd =>
        rw [hl] at hedge
        exact (hpart1 opts.workspace opts.toGraphOptions x hx (c, nd)
          (lookup_mem hl)).1 hedge
  · exact absurd hxn (List.not_mem_nil x)

/-- Counterexample to C5 as stated: the builder does create a node for
the excluded module `X` — exclusion suppresses only its edges. -/
theorem claim_C5_counterexample :
    (buildGraph wsXY { workspace := wsXY, exclude := some ["X"] }).map Prod.fst
      = ["X", "Y"] ∧
    "X" ∈ (buildGraph wsXY { workspace := wsXY, exclude := some ["X"] }).map Prod.fst :=
  ⟨rfl, by decide⟩

def optsSoleEx : TraversalOptions :=
  { workspace := wsSole, moduleName := "Y", exclude := some ["X"] }

/-- Witness for C5: the excluded-name-absent consequence applied at the
sole-path workspace. -/
theorem claim_C5_witness :
    ∃ r, getDependencies optsSoleEx = .ok r ∧
      "X" ∉ r.buildOrder.map fun nd => nd.module.declaration.name := by
  obtain ⟨r, hr⟩ : ∃ r, getDependencies optsSoleEx = .ok r := ⟨_, rfl⟩
  exact ⟨r, hr, claim_C5_exclusion.2.1 optsSoleEx "X" r (by decide) (by decide) hr⟩

/-! ## Claim C9 -/

lemma count_flatMap {α : Type} (l : List α) (f : α → List String) (b : String) :
    ((l.flatMap f).count b) = (l.map fun x => ((f x).count b)).sum := by
  induction l with
  | nil => rfl
  | cons x xs ih =>
    rw [List.flatMap_cons, List.count_append, ih, List.map_cons, List.sum_cons]

lemma sum_map_zero {α : Type} (l : List α) (g : α → Nat) (h : ∀ x ∈ l, g x = 0) :
    (l.map g).sum = 0 :=
  List.sum_eq_zero fun x hx => by
    obtain ⟨a, ha, rfl⟩ := List.mem_map.mp hx
    exact h a ha

/-- When module names are distinct and `g` vanishes away from name `b`,
summing `g` over the modules reduces to its value at the module named
`b`. -/
lemma sum_single_name (b : String) (mb : Module) (g : Module → Nat) :
    ∀ modules : List Module, (modules.map fun m => m.declaration.name).Nodup →
      mb ∈ modules → mb.declaration.name = b →
      (∀ u ∈ modules, u.declaration.name ≠ b → g u = 0) →
      (modules.map g).sum = g mb := by
  intro modules
  induction modules with
  | nil =>
    intro _ hmem _ _
    exact absurd hmem (List.not_mem_nil mb)
  | cons x xs ih =>
    intro hnd hmem hname hz
    rw [List.map_cons] at hnd
    rw [List.map_cons, List.sum_cons]
    by_cases hx : x.declaration.name = b
    · have hxs0 : (xs.map g).sum = 0 := by
        apply sum_map_zero
        intro u hu
        apply hz u (List.mem_cons_of_mem _ hu)
        intro hub
        have hmm : u.declaration.name ∈ xs.map fun m => m.declaration.name :=
          List.mem_map.mpr ⟨u, hu, rfl⟩
        rw [hub, ← hx] at hmm
        exact (List.nodup_cons.mp hnd).1 hmm
      have hmbx : mb = x := by
        rcases List.mem_cons.mp hmem with he | hm
        · exact he
        · exfalso
          have hmm : mb.declaration.name ∈ xs.map fun m => m.declaration.name :=
            List.mem_map.mpr ⟨mb, hm, rfl⟩
          rw [hname, ← hx] at hmm
          exact (List.nodup_cons.mp hnd).1 hmm
      rw [hxs0, hmbx, Nat.add_zero]
    · have h0 : g x = 0 := hz x (List.mem_cons_self _ _) hx
      have hmbm : mb ∈ xs := by
        rcases List.mem_cons.mp hmem with he | hm
        · exact absurd (he ▸ hname) hx
        · exact hm
      rw [h0, Nat.zero_add]
      exact ih (List.nodup_cons.mp hnd).2 hmbm hname
        fun u hu hub => hz u (List.mem_cons_of_mem _ hu) hub

/-- Multiplicity of `a` in a dependencies list: one per map key whose
map carries a workspace edge to the module named `a`. -/
lemma count_nodeDependencies (modules : List Module) (mapKeys : List DependencyMapKey)
    (excluded : List String) (mb ma : Module) (a : String)
    (hnd : (modules.map fun m => m.declaration.name).Nodup)
    (hma : ma ∈ modules) (haname : ma.declaration.name = a) :
    ((nodeDependencies modules mapKeys excluded mb).count a) =
      if excluded.contains mb.declaration.name = true then 0
      else (mapKeys.map fun k =>
        match mb.declaration.mapOf k with
        | none => 0
        | some dm => if edgeTest excluded dm ma = true then 1 else 0).sum := by
  unfold nodeDependencies
  by_cases hex : excluded.contains mb.declaration.name = true
  · simp only [if_pos hex]
    rfl
  · simp only [if_neg hex]
    rw [count_flatMap]
    refine congrArg List.sum (List.map_congr_left ?_)
    intro k hk
    cases hmap : mb.declaration.mapOf k with
    | none => rfl
    | some dm =>
      dsimp only
      rw [count_flatMap]
      refine (sum_single_name a ma
        (fun v => ((if edgeTest excluded dm v = true
          then [v.declaration.name] else []).count a))
        modules hnd hma haname ?_).trans ?_
      · intro u hu hub
        dsimp only
        cases ht : edgeTest excluded dm u
        · rfl
        · simp [List.count_singleton', hub]
      · dsimp only
        cases ht : edgeTest excluded dm ma
        · rfl
        · simp [List.count_singleton', haname]

lemma count_dependents_inner_ne (mapKeys : List DependencyMapKey) (excluded : List String)
    (ma u : Module) (b : String) (hub : u.declaration.name ≠ b) :
    ((if excluded.contains u.declaration.name = true then []
      else mapKeys.flatMap fun k =>
        match u.declaration.mapOf k with
        | none => []
        | some dm => if edgeTest excluded dm ma = true
            then [u.declaration.name] else []).count b) = 0 := by
  by_cases hcu : excluded.contains u.declaration.name = true
  · rw [if_pos hcu]
    rfl
  · rw [if_neg hcu]
    rw [count_flatMap]
    apply sum_map_zero
    intro k hk
    cases hmap : u.declaration.mapOf k with
    | none => rfl
    | some dm =>
      dsimp only
      cases ht : edgeTest excluded dm ma
      · rfl
      · simp [List.count_singleton', hub]

/-- Multiplicity of `b` in a dependents list: the same per-key count,
taken at the module named `b`. -/
lemma count_nodeDependents (modules : List Module) (mapKeys : List DependencyMapKey)
    (excluded : List String) (ma mb : Module) (b : String)
    (hnd : (modules.map fun m => m.declaration.name).Nodup)
    (hmb : mb ∈ modules) (hbname : mb.declaration.name = b) :
    ((nodeDependents modules mapKeys excluded ma).count b) =
      if excluded.contains mb.declaration.name = true then 0
      else (mapKeys.map fun k =>
        match mb.declaration.mapOf k with
        | none => 0
        | some dm => if edgeTest excluded dm ma = true then 1 else 0).sum := by
  unfold nodeDependents
  rw [count_flatMap]
  by_cases hex : excluded.contains mb.declaration.name = true
  · rw [if_pos hex]
    apply sum_map_zero
    intro u hu
    by_cases hub : u.declaration.name = b
    · have he2 : excluded.contains u.declaration.name = true := by
        rw [hub, ← hbname]
        exact hex
      simp only [if_pos he2]
      rfl
    · exact count_dependents_inner_ne mapKeys excluded ma u b hub
  · rw [if_neg hex]
    refine (sum_single_name b mb
      (fun u => ((if excluded.contains u.declaration.name = true then []
        else mapKeys.flatMap fun k =>
          match u.declaration.mapOf k with
          | none => []
          | some dm => if edgeTest excluded dm ma = true
              then [u.declaration.name] else []).count b))
      modules hnd hmb hbname ?_).trans ?_
    · intro u hu hub
      exact count_dependents_inner_ne mapKeys excluded ma u b hub
    · rw [if_neg hex]
      rw [count_flatMap]
      refine congrArg List.sum (List.map_congr_left ?_)
      intro k hk
      cases hmap : mb.declaration.mapOf k with
      | none => rfl
      | some dm =>
        dsimp only
        cases ht : edgeTest excluded dm ma
        · rfl
        · simp [List.count_singleton', hbname]

/-- In a built graph with distinct module names, the multiplicity of
`a` in `b`'s dependencies equals the multiplicity of `b` in `a`'s
dependents. -/
lemma buildGraph_count {ws : Workspace} {opts : GraphOptions}
    (hnd : (ws.modules.map fun m => m.declaration.name).Nodup)
    {a b : String} {na nb : GraphNode}
    (ha : (a, na) ∈ buildGraph ws opts) (hb : (b, nb) ∈ buildGraph ws opts) :
    (nb.dependencies.count a) = (na.dependents.count b) := by
  obtain ⟨ma, hma, hpa⟩ := mem_buildGraph ha
  obtain ⟨mb, hmb, hpb⟩ := mem_buildGraph hb
  rw [Prod.mk.injEq] at hpa hpb
  obtain ⟨rfl, rfl⟩ := hpa
  obtain ⟨rfl, rfl⟩ := hpb
  dsimp only
  rw [count_nodeDependencies ws.modules (opts.dependencyMaps.getD DEFAULT_DEPENDENCY_MAPS)
      (opts.exclude.getD []) mb ma ma.declaration.name hnd hma rfl,
    count_nodeDependents ws.modules (opts.dependencyMaps.getD DEFAULT_DEPENDENCY_MAPS)
      (opts.exclude.getD []) ma mb mb.declaration.name hnd hmb rfl]

/-- The node list of any successful traversal result is the image of a
name list whose members are all keys of the graph, each mapped to its
filtered node. -/
lemma createTraversalOn_ok_shape {bk : BranchKey} {dir : Direction} {G : Graph}
    {nm : String} {inc : Option Bool} {r : TraversalResult}
    (h : createTraversalOn bk dir G nm inc = .ok r) :
    ∃ aff : List String, (∀ m ∈ aff, (((G.lookup m).isSome : Bool) : Prop)) ∧
      r.buildOrder = aff.map fun m =>
        match G.lookup m with
        | some node => filterNode aff node
        | none => dummyNode := by
  unfold createTraversalOn at h
  cases hlook : G.lookup nm with
  | none =>
    rw [hlook] at h
    exact absurd h (by simp)
  | some onode =>
    rw [hlook] at h
    dsimp only at h
    cases dir with
    | push =>
      cases hv : visit G bk .push nm inc (G.length + 1) nm ⟨[], [], []⟩ with
      | error e =>
        rw [hv] at h
        exact absurd h (by simp)
      | ok s =>
        rw [hv] at h
        dsimp only at h
        cases h
        have hpost := visit_ok_spec G bk nm inc _ nm _ s (visitInv_init _ _ _ _) hv
        exact ⟨s.buildOrder,
          fun m hm => hpost.inv.visitedKeys m (hpost.inv.buildVisited m hm), rfl⟩
    | unshift =>
      rw [visit_unshift_eq G bk nm inc (G.length + 1) nm [] [] []] at h
      rw [List.reverse_nil] at h
      cases hv : visit G bk .push nm inc (G.length + 1) nm ⟨[], [], []⟩ with
      | error e =>
        rw [hv] at h
        exact absurd h (by simp [Except.map])
      | ok s =>
        rw [hv] at h
        simp only [Except.map] at h
        dsimp only [relabState] at h
        cases h
        have hpost := visit_ok_spec G bk nm inc _ nm _ s (visitInv_init _ _ _ _) hv
        exact ⟨s.buildOrder.reverse,
          fun m hm => hpost.inv.visitedKeys m
            (hpost.inv.buildVisited m (List.mem_reverse.mp hm)), rfl⟩

lemma count_filterNode_dependencies (aff : List String) (node : GraphNode) (q : String)
    (hq : q ∈ aff) :
    ((filterNode aff node).dependencies.count q) = (node.dependencies.count q) := by
  unfold filterNode
  dsimp only
  apply List.count_filter
  simpa using hq

lemma count_filterNode_dependents (aff : List String) (node : GraphNode) (q : String)
    (hq : q ∈ aff) :
    ((filterNode aff node).dependents.count q) = (node.dependents.count q) := by
  unfold filterNode
  dsimp only
  apply List.count_filter
  simpa using hq

/-- Mutual multiplicity consistency carries over to the filtered nodes
of any successful traversal result. -/
lemma traversalResult_count (ws : Workspace) (gopts : GraphOptions)
    (bk : BranchKey) (dir : Direction) (nm : String) (inc : Option Bool)
    (r : TraversalResult)
    (hnd : (ws.modules.map fun m => m.declaration.name).Nodup)
    (h : createTraversalOn bk dir (buildGraph ws gopts) nm inc = .ok r) :
    ∀ x ∈ r.buildOrder, ∀ y ∈ r.buildOrder,
      (x.dependencies.count y.module.declaration.name) =
        (y.dependents.count x.module.declaration.name) := by
  obtain ⟨aff, hkeys, hbo⟩ := createTraversalOn_ok_shape h
  intro x hx y hy
  rw [hbo] at hx hy
  obtain ⟨p, hp, hxp⟩ := List.mem_map.mp hx
  obtain ⟨q, hq, hyq⟩ := List.mem_map.mp hy
  obtain ⟨nx, hlx⟩ := Option.isSome_iff_exists.mp (hkeys p hp)
  obtain ⟨ny, hly⟩ := Option.isSome_iff_exists.mp (hkeys q hq)
  rw [hlx] at hxp
  rw [hly] at hyq
  dsimp only at hxp hyq
  have hxname : x.module.declaration.name = p := by
    rw [← hxp]
    exact buildGraph_keyNamed ws gopts (p, nx) (lookup_mem hlx)
  have hyname : y.module.declaration.name = q := by
    rw [← hyq]
    exact buildGraph_keyNamed ws gopts (q, ny) (lookup_mem hly)
  rw [hxname, hyname, ← hxp, ← hyq]
  rw [count_filterNode_dependencies aff nx q hq, count_filterNode_dependents aff ny p hp]
  exact buildGraph_count hnd (lookup_mem hly) (lookup_mem hlx)

/-- C9: the dependencies and dependents lists are mutually consistent
with matching multiplicity — in the built graph, the multiplicity of
`a` in `b`'s dependencies equals the multiplicity of `b` in `a`'s
dependents, and the same holds between the filtered nodes of any
successful `getDependencies` or `getDependents` result — for
workspaces whose member modules have pairwise distinct names. -/
theorem claim_C9_mutual_counts :
    (∀ (ws : Workspace) (gopts : GraphOptions),
      (ws.modules.map fun m => m.declaration.name).Nodup →
      ∀ (a b : String) (na nb : GraphNode),
        (a, na) ∈ buildGraph ws gopts → (b, nb) ∈ buildGraph ws gopts →
        (nb.dependencies.count a) = (na.dependents.count b)) ∧
    (∀ (opts : TraversalOptions) (r : TraversalResult),
      (opts.workspace.modules.map fun m => m.declaration.name).Nodup →
      (getDependencies opts = .ok r ∨ getDependents opts = .ok r) →
      ∀ x ∈ r.buildOrder, ∀ y ∈ r.buildOrder,
        (x.dependencies.count y.module.declaration.name) =
          (y.dependents.count x.module.declaration.name)) := by
  refine ⟨fun ws gopts hnd a b na nb ha hb => buildGraph_count hnd ha hb, ?_⟩
  intro opts r hnd hok
  rcases hok with h | h
  · exact traversalResult_count opts.workspace opts.toGraphOptions .dependencies .push
      opts.moduleName opts.includeSelf r hnd h
  · exact traversalResult_count opts.workspace opts.toGraphOptions .dependents .unshift
      opts.moduleName opts.includeSelf r hnd h

/-- Witness for C9 at the diamond workspace: the `X` node's
dependencies count of `"Z"` equals the `Z` node's dependents count of
`"X"`. -/
theorem claim_C9_witness :
    ∃ na nb, ("Z", na) ∈ buildGraph wsDiamond optsDiamondZ.toGraphOptions ∧
      ("X", nb) ∈ buildGraph wsDiamond optsDiamondZ.toGraphOptions ∧
      (nb.dependencies.count "Z") = (na.dependents.count "X") := by
  obtain ⟨na, hla⟩ : ∃ x, (buildGraph wsDiamond optsDiamondZ.toGraphOptions).lookup "Z"
      = some x := ⟨_, rfl⟩
  obtain ⟨nb, hlb⟩ : ∃ x, (buildGraph wsDiamond optsDiamondZ.toGraphOptions).lookup "X"
      = some x := ⟨_, rfl⟩
  exact ⟨na, nb, lookup_mem hla, lookup_mem hlb,
    claim_C9_mutual_counts.1 wsDiamond optsDiamondZ.toGraphOptions (by decide)
      "Z" "X" na nb (lookup_mem hla) (lookup_mem hlb)⟩

end WUtil
